import Mathlib

/-!
Verification development for the code-echo repository's scanning-and-streaming
pipeline (Go sources under src/). Shallow embedding: each Go function that the
claims depend on is translated into an executable Lean definition, keeping the
source's names and structure. Go strings are modelled as `String`/`List Char`
where each `Char` stands for one byte (all concrete inputs are ASCII; the Go
code operates bytewise for everything the claims exercise). Go `int`/`int64`
counters are modelled as `Int`/`Nat`; no overflow is possible at the sizes the
claims involve.
-/

namespace CodeEcho

/-! ## Byte/character helpers -/

/-- ASCII lower-casing of one character. Models `strings.ToLower` for the
ASCII inputs the code compares (extensions, names, shebangs); Go's Unicode
case mapping agrees with this on ASCII. -/
def lowerChar (c : Char) : Char :=
  if 'A' ≤ c ∧ c ≤ 'Z' then Char.ofNat (c.toNat + 32) else c

/-- Models `strings.ToLower` (ASCII fragment). -/
def toLowerStr (s : String) : String := String.mk (s.data.map lowerChar)

/-- Models `strings.HasSuffix`. -/
def hasSuffix (s suffixStr : String) : Bool := suffixStr.data.isSuffixOf s.data

/-- Characters Go's `unicode.IsSpace` accepts (the white space property). -/
def isSpaceGo (c : Char) : Bool :=
  c = ' ' ∨ c = '\t' ∨ c = '\n' ∨ c = '\x0b' ∨ c = '\x0c' ∨ c = '\r' ∨
  c.toNat = 0x85 ∨ c.toNat = 0xA0 ∨ c.toNat = 0x1680 ∨
  (0x2000 ≤ c.toNat ∧ c.toNat ≤ 0x200A) ∨ c.toNat = 0x2028 ∨ c.toNat = 0x2029 ∨
  c.toNat = 0x202F ∨ c.toNat = 0x205F ∨ c.toNat = 0x3000

/-- Models `strings.Split(content, "\n")` on character lists: the list of
newline-separated segments; the empty string yields one empty segment. -/
def splitNl : List Char → List (List Char)
  | [] => [[]]
  | c :: rest =>
    if c = '\n' then [] :: splitNl rest
    else
      match splitNl rest with
      | [] => [[c]]
      | l :: ls => (c :: l) :: ls

/-- Models `strings.Join(lines, "\n")`. -/
def joinNl (ls : List (List Char)) : List Char := List.intercalate ['\n'] ls

/-- Apply a function to the last element of a list only. -/
def mapLast (f : List Char → List Char) : List (List Char) → List (List Char)
  | [] => []
  | [l] => [f l]
  | l :: ls => l :: mapLast f ls

/-! ## Regular-expression replacements used by the content transformer

Go's `regexp` (RE2) runs without the `m` flag here, so `$` anchors only at the
end of the whole text and `.` never matches a newline. The two replacement
shapes the transformer uses are translated as follows.

`re.ReplaceAllString(s, "")` for a pattern `marker.*$`: a match must start at
an occurrence of `marker` after which no newline follows (so the match lies in
the final line and runs to the end of the text); the leftmost such occurrence
is the first occurrence of `marker` inside the final line, and replacing it by
the empty string truncates the text there. Hence: cut the final
newline-separated segment at the first occurrence of `marker`.

`re.ReplaceAllString(s, "")` for a pattern `opn[\s\S]*?close`: scanning left to
right, a match starts at each occurrence of `opn` that is followed (at distance
at least the length of `opn`) by `close`; the non-greedy body makes the match
end at the first such `close`; scanning resumes after the match in the original
text (replacements are not rescanned). If an `opn` has no later `close` there
is no match there nor at any later position.
-/

/-- Everything of `s` before the first occurrence of `pat` (the whole of `s`
when `pat` does not occur). -/
def cutAtFirst (pat : List Char) : List Char → List Char
  | [] => []
  | c :: rest => if pat.isPrefixOf (c :: rest) then [] else c :: cutAtFirst pat rest

/-- Models `regexp.MustCompile(marker ++ ".*$").ReplaceAllString(s, "")` with
RE2 default flags ($ = end of text): only the final line is cut, at the first
occurrence of the marker. -/
def replLineEOT (marker : List Char) (s : List Char) : List Char :=
  joinNl (mapLast (cutAtFirst marker) (splitNl s))

/-- The suffix of `s` strictly after the first occurrence of `pat`,
or `none` when `pat` does not occur in `s`. -/
def dropAfterFirst (pat : List Char) : List Char → Option (List Char)
  | [] => none
  | c :: rest =>
    if pat.isPrefixOf (c :: rest) then some ((c :: rest).drop pat.length)
    else dropAfterFirst pat rest

/-- Fuel-indexed body of `stripBlock`; the fuel only bounds recursion depth and
`stripBlock` always supplies enough. -/
def stripBlockF (opn close : List Char) : Nat → List Char → List Char
  | 0, s => s
  | fuel + 1, s =>
    match s with
    | [] => []
    | c :: rest =>
      if opn.isPrefixOf (c :: rest) then
        match dropAfterFirst close ((c :: rest).drop opn.length) with
        | some after => stripBlockF opn close fuel after
        | none => c :: rest
      else c :: stripBlockF opn close fuel rest

/-- Models `regexp.MustCompile(opn ++ "[\s\S]*?" ++ close).ReplaceAllString(s, "")`:
remove every non-overlapping shortest `opn …​ close` span in a single
left-to-right scan. -/
def stripBlock (opn close : List Char) (s : List Char) : List Char :=
  stripBlockF opn close (s.length + 1) s

/-! ## JSON syntax (used by `compressWhitespace` and the streaming JSON writer)

A JSON value with literal number and raw (still escaped) string tokens. Go's
`json.Unmarshal` decodes numbers to `float64` and re-`Marshal` re-renders
them; this model keeps the literal token text instead (floating-point
re-rendering is outside the embedding; no claim exercises it). Strings
likewise keep their raw escape sequences. -/
inductive JVal where
  | jnull : JVal
  | jbool : Bool → JVal
  | jnum : List Char → JVal
  | jstr : List Char → JVal
  | jarr : List JVal → JVal
  | jobj : List (List Char × JVal) → JVal

/-- JSON insignificant whitespace. -/
def jskipWs (s : List Char) : List Char :=
  s.dropWhile (fun c => c = ' ' ∨ c = '\t' ∨ c = '\n' ∨ c = '\r')

def isDigitCh (c : Char) : Bool := '0' ≤ c ∧ c ≤ '9'

def isHexCh (c : Char) : Bool :=
  ('0' ≤ c ∧ c ≤ '9') ∨ ('a' ≤ c ∧ c ≤ 'f') ∨ ('A' ≤ c ∧ c ≤ 'F')

/-- Parse the body of a JSON string after the opening quote. Returns the raw
token characters (escape sequences kept verbatim) and the remaining input
after the closing quote. Control characters below 0x20 are rejected, escape
sequences are checked. -/
def jstrBody : List Char → Option (List Char × List Char)
  | [] => none
  | c :: rest =>
    if c = '"' then some ([], rest)
    else if c = '\\' then
      match rest with
      | [] => none
      | e :: rest2 =>
        if e = '"' ∨ e = '\\' ∨ e = '/' ∨ e = 'b' ∨ e = 'f' ∨ e = 'n' ∨ e = 'r' ∨ e = 't' then
          match jstrBody rest2 with
          | some (raw, rem) => some (c :: e :: raw, rem)
          | none => none
        else if e = 'u' then
          match rest2 with
          | h1 :: h2 :: h3 :: h4 :: rest6 =>
            if isHexCh h1 ∧ isHexCh h2 ∧ isHexCh h3 ∧ isHexCh h4 then
              match jstrBody rest6 with
              | some (raw, rem) => some (c :: e :: h1 :: h2 :: h3 :: h4 :: raw, rem)
              | none => none
            else none
          | _ => none
        else none
    else if c.toNat < 0x20 then none
    else
      match jstrBody rest with
      | some (raw, rem) => some (c :: raw, rem)
      | none => none

/-- Lex a JSON number token (sign, integer part, optional fraction and
exponent). Returns the token and the rest. -/
def jnumTok (s : List Char) : Option (List Char × List Char) :=
  let (sgn, s1) : List Char × List Char :=
    match s with
    | '-' :: r => (['-'], r)
    | _ => ([], s)
  let intPart : Option (List Char × List Char) :=
    match s1 with
    | '0' :: r => some (['0'], r)
    | c :: _ =>
      if '1' ≤ c ∧ c ≤ '9' then
        some (s1.takeWhile isDigitCh, s1.dropWhile isDigitCh)
      else none
    | [] => none
  match intPart with
  | none => none
  | some (ip, s2) =>
    let fracPart : Option (List Char × List Char) :=
      match s2 with
      | '.' :: r =>
        let ds := r.takeWhile isDigitCh
        if ds = [] then none else some ('.' :: ds, r.dropWhile isDigitCh)
      | _ => some ([], s2)
    match fracPart with
    | none => none
    | some (fp, s3) =>
      let expPart : Option (List Char × List Char) :=
        match s3 with
        | e :: r =>
          if e = 'e' ∨ e = 'E' then
            let (es, r2) : List Char × List Char :=
              match r with
              | '+' :: rr => (['+'], rr)
              | '-' :: rr => (['-'], rr)
              | _ => ([], r)
            let ds := r2.takeWhile isDigitCh
            if ds = [] then none else some (e :: es ++ ds, r2.dropWhile isDigitCh)
          else some ([], s3)
        | [] => some ([], s3)
      match expPart with
      | none => none
      | some (ep, s4) => some (sgn ++ ip ++ fp ++ ep, s4)

/-- Parser mode: a single value, the elements of an array after `[`, or the
members of an object after a key is expected. -/
inductive JMode where
  | val : JMode
  | arr : JMode
  | obj : JMode

/-- Recursive-descent JSON parser; structural on the fuel so that concrete
runs reduce in the kernel. The fuel bounds the number of values parsed, and
`jsonDocParse` supplies input length + 1 which always suffices. -/
def jparseF : Nat → JMode → List Char → Option (JVal × List Char)
  | 0, _, _ => none
  | fuel + 1, JMode.val, s =>
    match jskipWs s with
    | 'n' :: 'u' :: 'l' :: 'l' :: rest => some (JVal.jnull, rest)
    | 't' :: 'r' :: 'u' :: 'e' :: rest => some (JVal.jbool true, rest)
    | 'f' :: 'a' :: 'l' :: 's' :: 'e' :: rest => some (JVal.jbool false, rest)
    | '"' :: rest =>
      match jstrBody rest with
      | some (raw, rem) => some (JVal.jstr raw, rem)
      | none => none
    | '[' :: rest =>
      (match jskipWs rest with
       | ']' :: rest2 => some (JVal.jarr [], rest2)
       | _ => jparseF fuel JMode.arr rest)
    | c :: rest =>
      if c.toNat = 0x7b then
        (match jskipWs rest with
         | d :: rest2 =>
           if d.toNat = 0x7d then some (JVal.jobj [], rest2)
           else jparseF fuel JMode.obj rest
         | [] => none)
      else
        (match jnumTok (c :: rest) with
         | some (tok, rem) => some (JVal.jnum tok, rem)
         | none => none)
    | [] => none
  | fuel + 1, JMode.arr, s =>
    match jparseF fuel JMode.val s with
    | none => none
    | some (v, rest) =>
      match jskipWs rest with
      | ',' :: rest2 =>
        (match jparseF fuel JMode.arr rest2 with
         | some (JVal.jarr xs, rest3) => some (JVal.jarr (v :: xs), rest3)
         | _ => none)
      | ']' :: rest2 => some (JVal.jarr [v], rest2)
      | _ => none
  | fuel + 1, JMode.obj, s =>
    match jskipWs s with
    | '"' :: rest =>
      (match jstrBody rest with
       | none => none
       | some (key, rest2) =>
         match jskipWs rest2 with
         | ':' :: rest3 =>
           (match jparseF fuel JMode.val rest3 with
            | none => none
            | some (v, rest4) =>
              match jskipWs rest4 with
              | ',' :: rest5 =>
                (match jparseF fuel JMode.obj rest5 with
                 | some (JVal.jobj fs, rest6) => some (JVal.jobj ((key, v) :: fs), rest6)
                 | _ => none)
              | d :: rest5 =>
                if d.toNat = 0x7d then some (JVal.jobj [(key, v)], rest5) else none
              | [] => none)
         | _ => none)
    | _ => none

/-- Parse a complete JSON document (one value plus trailing whitespace), as
`json.Unmarshal` requires. -/
def jsonDocParse (s : String) : Option JVal :=
  match jparseF (s.length + 1) JMode.val s.data with
  | some (v, rest) => if jskipWs rest = [] then some v else none
  | none => none

/-- A string is a syntactically well-formed JSON document. -/
def jsonDocValid (s : String) : Bool := (jsonDocParse s).isSome

/-- Replace the binding for `key`, or append it; models assignment into the
`map[string]interface{}` that `json.Unmarshal` fills (later duplicate keys
overwrite earlier ones). -/
def upsertField (fs : List (List Char × JVal)) (key : List Char) (v : JVal) :
    List (List Char × JVal) :=
  match fs with
  | [] => [(key, v)]
  | (k, w) :: rest =>
    if k = key then (k, v) :: rest else (k, w) :: upsertField rest key v

/-- Collapse duplicate object keys, later key wins (Go map semantics). -/
def dedupFields (fs : List (List Char × JVal)) : List (List Char × JVal) :=
  fs.foldl (fun acc kv => upsertField acc kv.1 kv.2) []

/-- Compact serialization of a parsed JSON value, with object keys sorted as
`json.Marshal` does for maps. Number and string tokens are re-emitted
literally (see `JVal`). Fuel-indexed for kernel reducibility; the value's
nesting depth never exceeds the fuel `compressWhitespace` supplies. -/
def jserializeF : Nat → JVal → List Char
  | 0, _ => []
  | fuel + 1, v =>
    match v with
    | JVal.jnull => ['n', 'u', 'l', 'l']
    | JVal.jbool true => ['t', 'r', 'u', 'e']
    | JVal.jbool false => ['f', 'a', 'l', 's', 'e']
    | JVal.jnum tok => tok
    | JVal.jstr raw => '"' :: raw ++ ['"']
    | JVal.jarr xs =>
      '[' :: List.intercalate [','] (xs.map (jserializeF fuel)) ++ [']']
    | JVal.jobj fs =>
      let fs2 := (dedupFields fs).insertionSort
        (fun a b => String.mk a.1 ≤ String.mk b.1)
      Char.ofNat 0x7b ::
        List.intercalate [',']
          (fs2.map (fun kv => '"' :: kv.1 ++ ['"', ':'] ++ jserializeF fuel kv.2)) ++
        [Char.ofNat 0x7d]

/-! ## Content transformer (scanner/processing.go and cmd/scan.go, identical) -/

/-- Mirrors the Go `ScanOptions` struct (scanner/types.go). -/
structure ScanOptions where
  includeSummary : Bool
  includeDirectoryTree : Bool
  showLineNumbers : Bool
  outputParsableFormat : Bool
  compressCode : Bool
  removeComments : Bool
  removeEmptyLines : Bool
  excludeDirs : List String
  includeExts : List String
  includeContent : Bool
deriving Repr, DecidableEq

/-- Translation of `stripComments(content, language string) string`: the
switch over language families, each arm performing its
`regexp.ReplaceAllString` calls in source order (for the C family the
end-of-text line-comment replacement runs before the block replacement). -/
def stripComments (content : String) (language : String) : String :=
  if language = "go" ∨ language = "javascript" ∨ language = "typescript" ∨
     language = "java" ∨ language = "cpp" ∨ language = "c" ∨
     language = "rust" ∨ language = "php" then
    String.mk (stripBlock ['/', '*'] ['*', '/'] (replLineEOT ['/', '/'] content.data))
  else if language = "python" ∨ language = "ruby" then
    String.mk (replLineEOT ['#'] content.data)
  else if language = "html" ∨ language = "xml" then
    String.mk (stripBlock "<!--".data "-->".data content.data)
  else if language = "css" then
    String.mk (stripBlock ['/', '*'] ['*', '/'] content.data)
  else content

/-- Translation of `stripEmptyLines`: split on newline, drop lines whose
`strings.TrimSpace` is empty, rejoin. -/
def stripEmptyLines (content : String) : String :=
  String.mk (joinNl ((splitNl content.data).filter
    (fun l => l.any (fun c => ¬ isSpaceGo c))))

/-- Collapse every run of spaces/tabs to a single space
(`regexp.MustCompile("[ \t]+").ReplaceAllString(s, " ")`). -/
def collapseSpTab : List Char → List Char
  | [] => []
  | c :: rest =>
    if c = ' ' ∨ c = '\t' then
      match rest with
      | d :: _ =>
        if d = ' ' ∨ d = '\t' then collapseSpTab rest else ' ' :: collapseSpTab rest
      | [] => [' ']
    else c :: collapseSpTab rest

/-- Models `regexp.MustCompile("[ \t]+$").ReplaceAllString(s, "")` with RE2
default flags: `$` is end of text only, so only one trailing run of
spaces/tabs at the very end of the text is removed (not per line, despite the
source comment). -/
def trimTrailingEOT (s : List Char) : List Char :=
  (s.reverse.dropWhile (fun c => c = ' ' ∨ c = '\t')).reverse

/-- Translation of `compressWhitespace(content, language string) string`. For
"json", a successful `json.Unmarshal` + `json.Marshal` round-trip returns the
minified document immediately; otherwise fall through. For
"javascript"/"css", collapse space/tab runs. Finally the generic end-of-text
trailing-whitespace replacement. -/
def compressWhitespace (content : String) (language : String) : String :=
  if language = "json" then
    match jsonDocParse content with
    | some v => String.mk (jserializeF (content.length + 1) v)
    | none => String.mk (trimTrailingEOT content.data)
  else if language = "javascript" ∨ language = "css" then
    String.mk (trimTrailingEOT (collapseSpTab content.data))
  else
    String.mk (trimTrailingEOT content.data)

/-- Translation of `processFileContent(content, language, opts)`: the three
transform stages in their fixed order, each gated by its flag. -/
def processFileContent (content : String) (language : String) (opts : ScanOptions) : String :=
  let processed := content
  let processed := if opts.removeComments then stripComments processed language else processed
  let processed := if opts.removeEmptyLines then stripEmptyLines processed else processed
  let processed := if opts.compressCode then compressWhitespace processed language else processed
  processed

/-- Translation of `utils.CountLines`. -/
def countLines (content : String) : Nat :=
  if content = "" then 0
  else
    let lines := 1 + (content.data.filter (fun c => c = '\n')).length
    if content.data.getLast? = some '\n' then lines - 1 else lines

/-! ## Path helpers and filters -/

/-- Translation of `filepath.Ext`: the suffix of the final path element
starting at its last dot, empty when the final element has no dot. -/
def fileExt (path : String) : String :=
  let seg := path.data.reverse.takeWhile (fun c => c ≠ '/')
  match seg.findIdx? (fun c => c = '.') with
  | some i => String.mk ((seg.take (i + 1)).reverse)
  | none => ""

/-- Translation of `filepath.Base` for the nonempty, slash-normalized paths
the walker produces: the final path element. -/
def baseName (path : String) : String :=
  String.mk ((path.data.reverse.takeWhile (fun c => c ≠ '/')).reverse)

/-- Translation of `shouldExcludeDir`: exact basename membership in the
exclusion list (cmd/scan.go body; the scanner-package call sites pass the
list explicitly). -/
def shouldExcludeDir (dirName : String) (excludeDirs : List String) : Bool :=
  excludeDirs.any (fun excluded => dirName = excluded)

/-- Translation of `shouldIncludeFile`: empty allow-list includes everything,
otherwise case-insensitive suffix match of the full path against any entry. -/
def shouldIncludeFile (path : String) (includeExts : List String) : Bool :=
  if includeExts.length = 0 then true
  else includeExts.any (fun ext => hasSuffix (toLowerStr path) (toLowerStr ext))

/-! ## Classifier (scanner/language.go, enhanced variant; the two variants in
the repository have identical extension and filename tables) -/

/-- The `langMap` literal from `detectLanguage`. -/
def langMap : List (String × String) :=
  [(".go", "go"), (".js", "javascript"), (".ts", "typescript"), (".jsx", "jsx"),
   (".tsx", "tsx"), (".py", "python"), (".java", "java"), (".cpp", "cpp"),
   (".c", "c"), (".h", "c"), (".rs", "rust"), (".rb", "ruby"), (".php", "php"),
   (".css", "css"), (".html", "html"), (".json", "json"), (".md", "markdown"),
   (".yml", "yaml"), (".yaml", "yaml"), (".toml", "toml"), (".xml", "xml")]

/-- Translation of `detectLanguage`: lower-cased `filepath.Ext` looked up in
the static map, empty string when absent. -/
def detectLanguage (path : String) : String :=
  let ext := toLowerStr (fileExt path)
  match langMap.find? (fun kv => kv.1 = ext) with
  | some kv => kv.2
  | none => ""

/-- The `textExtensions` table (membership in the Go `map[string]bool`
literal, whose values are all `true`). -/
def textExtensions : List String :=
  [".txt", ".md", ".rst", ".asciidoc",
   ".go", ".py", ".js", ".ts", ".jsx", ".tsx",
   ".java", ".c", ".cpp", ".cc", ".cxx", ".h", ".hpp",
   ".cs", ".php", ".rb", ".rs", ".swift", ".kt",
   ".html", ".htm", ".xml", ".xhtml",
   ".css", ".scss", ".sass", ".less",
   ".json", ".yaml", ".yml", ".toml", ".ini", ".cfg", ".conf",
   ".sh", ".bash", ".zsh", ".fish", ".ps1", ".bat", ".cmd",
   ".sql", ".graphql", ".gql",
   ".dockerfile", ".gitignore", ".gitattributes",
   ".makefile", ".cmake",
   ".r", ".rmd", ".m", ".scala", ".clj", ".hs",
   ".vim", ".lua", ".pl", ".tcl",
   ".tex", ".bib", ".cls", ".sty",
   ".csv", ".tsv", ".log"]

/-- Translation of `isTextExtension`. -/
def isTextExtension (ext : String) : Bool := textExtensions.any (fun e => e = ext)

/-- The `textFiles` table of extension-less conventional text filenames. -/
def textFilenames : List String :=
  ["readme", "license", "changelog", "contributing",
   "authors", "contributors", "copying", "install",
   "news", "thanks", "todo", "version",
   "makefile", "dockerfile", "jenkinsfile",
   "gemfile", "rakefile", "guardfile", "procfile",
   ".gitignore", ".gitattributes", ".dockerignore",
   ".eslintrc", ".prettierrc", ".babelrc"]

/-- Translation of `isTextFilename`. -/
def isTextFilename (fileName : String) : Bool :=
  textFilenames.any (fun e => e = fileName)

/-- Translation of `isTextFile(path, extension)`: fast-path classification by
lower-cased extension, then by lower-cased basename; `false` when neither
table matches (content sampling is left to the scanner). -/
def isTextFile (path : String) (extension : String) : Bool :=
  let ext := toLowerStr extension
  if isTextExtension ext then true
  else
    let fileName := toLowerStr (baseName path)
    isTextFilename fileName

/-! ## Content-based detection (bytes are modelled as characters with code
points below 256) -/

/-- Continuation byte 10xxxxxx. -/
def isCont (b : Nat) : Bool := 0x80 ≤ b ∧ b ≤ 0xBF

/-- One step of Go's `utf8.DecodeRune` on a byte sequence, reduced to what the
classifier consumes: whether this step is an invalid sequence (RuneError with
size 1) and how many bytes it consumes. -/
def utf8DecodeStep : List Char → Bool × Nat
  | [] => (true, 1)
  | c :: rest =>
    let b0 := c.toNat
    if b0 < 0x80 then (false, 1)
    else if 0xC2 ≤ b0 ∧ b0 ≤ 0xDF then
      match rest with
      | c1 :: _ => if isCont c1.toNat then (false, 2) else (true, 1)
      | [] => (true, 1)
    else if 0xE0 ≤ b0 ∧ b0 ≤ 0xEF then
      match rest with
      | c1 :: c2 :: _ =>
        let ok1 :=
          if b0 = 0xE0 then 0xA0 ≤ c1.toNat ∧ c1.toNat ≤ 0xBF
          else if b0 = 0xED then 0x80 ≤ c1.toNat ∧ c1.toNat ≤ 0x9F
          else isCont c1.toNat
        if ok1 ∧ isCont c2.toNat then (false, 3) else (true, 1)
      | _ => (true, 1)
    else if 0xF0 ≤ b0 ∧ b0 ≤ 0xF4 then
      match rest with
      | c1 :: c2 :: c3 :: _ =>
        let ok1 :=
          if b0 = 0xF0 then 0x90 ≤ c1.toNat ∧ c1.toNat ≤ 0xBF
          else if b0 = 0xF4 then 0x80 ≤ c1.toNat ∧ c1.toNat ≤ 0x8F
          else isCont c1.toNat
        if ok1 ∧ isCont c2.toNat ∧ isCont c3.toNat then (false, 4) else (true, 1)
      | _ => (true, 1)
    else (true, 1)

/-- The rune-by-rune invalid-sequence counting loop of `isTextContent`
(fuel-indexed; the sample length always suffices since each step consumes at
least one byte). `utf8.Valid(sample)` holds exactly when this count is 0. -/
def utf8InvalidCountF : Nat → List Char → Nat
  | 0, _ => 0
  | _ + 1, [] => 0
  | fuel + 1, c :: rest =>
    let step := utf8DecodeStep (c :: rest)
    (if step.1 then 1 else 0) + utf8InvalidCountF fuel ((c :: rest).drop step.2)

/-- Translation of `isTextContent(data)`: empty data is text; a NUL byte in
the first-8192-byte sample means binary; more than 10% invalid UTF-8 units
means binary; otherwise text iff at least 80% of the sample is printable
ASCII or CR/TAB. The two float ratio comparisons are modelled by the
equivalent exact integer comparisons. -/
def isTextContent (data : List Char) : Bool :=
  if data.length = 0 then true
  else
    let sampleSize := min 8192 data.length
    let sample := data.take sampleSize
    if sample.any (fun c => c.toNat = 0) then false
    else
      let invalidCount := utf8InvalidCountF sample.length sample
      if invalidCount ≠ 0 ∧ 10 * invalidCount > sampleSize then false
      else
        let printableCount := (sample.filter (fun c =>
          (0x20 ≤ c.toNat ∧ c.toNat ≤ 0x7E) ∨ c = '\r' ∨ c = '\t')).length
        decide (10 * printableCount ≥ 8 * sample.length)

/-- Models `strings.Contains s sub`. -/
def strContains (s : List Char) (sub : List Char) : Bool :=
  match s with
  | [] => sub.isEmpty
  | c :: rest => sub.isPrefixOf (c :: rest) ∨ strContains rest sub

/-- The shebang interpreter table of `detectFromShebang`. Go iterates this
`map` in unspecified order; this model fixes the source order. Every concrete
input used below matches at most one pattern, where any order yields the
same answer. -/
def shebangPatterns : List (String × String) :=
  [("python", "python"), ("node", "javascript"), ("ruby", "ruby"),
   ("perl", "perl"), ("bash", "bash"), ("sh", "shell"),
   ("/bin/sh", "shell"), ("/bin/bash", "bash"), ("php", "php")]

/-- Translation of `detectFromShebang(content)`. -/
def detectFromShebang (content : List Char) : String :=
  if content.length < 3 ∨ ¬ (['#', '!'].isPrefixOf content) then ""
  else
    let firstLine :=
      match content.findIdx? (fun c => c = '\n') with
      | some i => if 0 < i then content.take i else content
      | none => content
    let shebang := firstLine.map lowerChar
    match shebangPatterns.find? (fun p => strContains shebang p.1.data) with
    | some p => p.2
    | none => ""

/-- The distinctive-signature table of `detectFromPatterns` (a slice: source
order is the iteration order). -/
def contentPatterns : List (String × String) :=
  [("<?php", "php"), ("<?xml", "xml"), ("<!doctype html", "html"),
   ("<html", "html"), ("import react", "jsx"), ("from react", "jsx"),
   ("package main", "go"), ("#!/usr/bin/env python", "python")]

/-- Translation of `detectFromPatterns(content)`: case-insensitive substring
search over the first 1024 bytes. -/
def detectFromPatterns (content : List Char) : String :=
  let sampleSize := min 1024 content.length
  let sample := (content.take sampleSize).map lowerChar
  match contentPatterns.find? (fun p => strContains sample p.1.data) with
  | some p => p.2
  | none => ""

/-- Translation of `detectLanguageFromContent(path, content)`: shebang first,
then content patterns, else empty (the path argument is unused in the
source too). -/
def detectLanguageFromContent (_path : String) (content : List Char) : String :=
  let lang := detectFromShebang content
  if lang ≠ "" then lang
  else
    let lang2 := detectFromPatterns content
    if lang2 ≠ "" then lang2 else ""

/-- The `div`/`exp` loop of `utils.FormatBytes`; 8 iterations cover every
int64 value. -/
def fmtBytesLoop : Nat → Int → Int → Nat → Int × Nat
  | 0, _, div, exp => (div, exp)
  | fuel + 1, n, div, exp =>
    if n ≥ 1024 then fmtBytesLoop fuel (n / 1024) (div * 1024) (exp + 1)
    else (div, exp)

/-- Translation of `utils.FormatBytes`. Sizes below 1024 render exactly as in
Go; the larger branch renders `%.1f` by exact decimal rounding, which agrees
with Go's float64 formatting away from ties (no claim depends on it). -/
def formatBytes (bytes : Int) : String :=
  if bytes < 1024 then toString bytes ++ " B"
  else
    let de := fmtBytesLoop 8 (bytes / 1024) 1024 0
    let tenths := (10 * bytes + de.1 / 2) / de.1
    toString (tenths / 10) ++ "." ++ toString (tenths % 10) ++ " " ++
      String.mk ["KMGTPE".data.getD de.2 'K'] ++ "B"

/-! ## Filesystem model and the scan engines

A directory tree is modelled as entries the walker visits in order. A
`file` node carries the metadata `d.Info()` would report (`statErr` makes
`d.Info()` fail), and the byte content `os.ReadFile` would return (`none`
makes the read fail). An `errEntry` is a path for which `filepath.WalkDir`
invokes the callback with a non-nil error (unreadable subdirectory, broken
symlink). Bytes are characters with code points below 256; timestamps are
carried as opaque pre-rendered strings (wall-clock formatting is outside the
embedding and outside every claim). -/
inductive FSEntry where
  | file (name : String) (size : Int) (mtime : String) (statErr : Bool)
      (content : Option (List Char)) : FSEntry
  | dir (name : String) (entries : List FSEntry) : FSEntry
  | errEntry (name : String) : FSEntry

/-- Mirrors the Go `FileInfo` struct (scanner/types.go). -/
structure FileInfo where
  path : String
  relativePath : String
  size : Int
  sizeFormatted : String
  modTime : String
  modTimeFormatted : String
  content : String
  language : String
  lineCount : Nat
  extension : String
  isText : Bool
deriving Repr, DecidableEq

/-- Mirrors `ScanError` (the `error` value itself is reduced to the phase and
path that identify it). -/
structure ScanErrorM where
  path : String
  phase : String
  skipped : Bool
deriving Repr, DecidableEq

/-- Mirrors `StreamingStats`. -/
structure StreamingStats where
  totalFiles : Int
  totalSize : Int
  textFiles : Int
  binaryFiles : Int
  languageCounts : List (String × Int)
deriving Repr, DecidableEq

def emptyStats : StreamingStats := ⟨0, 0, 0, 0, []⟩

/-- Models `s.stats.LanguageCounts[lang]++` on an association list. -/
def bumpLang (counts : List (String × Int)) (lang : String) : List (String × Int) :=
  match counts with
  | [] => [(lang, 1)]
  | (k, n) :: rest => if k = lang then (k, n + 1) :: rest else (k, n) :: bumpLang rest lang

/-- `filepath.Join`-style relative path accumulation: the walker's relative
path of entry `name` inside directory `relDir` (`""` denotes the root). The Go
code recovers the same string through `utils.GetRelativePath(root, path)`. -/
def relJoin (relDir name : String) : String :=
  if relDir = "" then name else relDir ++ "/" ++ name

/-- Metadata of one file the walker hands to the per-file processing code. -/
structure WalkedFile where
  path : String
  rel : String
  size : Int
  mtime : String
  content : Option (List Char)
deriving Repr, DecidableEq

/-! Structural size of an entry, the induction measure for the walk lemmas. -/
mutual
def sizeE : FSEntry → Nat
  | FSEntry.file _ _ _ _ _ => 1
  | FSEntry.errEntry _ => 1
  | FSEntry.dir _ entries => 1 + sizeL entries
def sizeL : List FSEntry → Nat
  | [] => 1
  | e :: es => sizeE e + sizeL es
end

/-! Derived characterization (not itself a Go function): the statable files
that survive directory exclusion and the extension allow-list, in traversal
order. Both scanners process exactly these files; the lemmas below prove
that. -/
mutual
def walkFilesEntry (cfg : ScanOptions) (root : String) :
    FSEntry → String → List WalkedFile
  | FSEntry.errEntry _, _ => []
  | FSEntry.file name size mtime statErr content, relDir =>
    let rel := relJoin relDir name
    let path := root ++ "/" ++ rel
    if shouldIncludeFile path cfg.includeExts ∧ ¬ statErr then
      [⟨path, rel, size, mtime, content⟩]
    else []
  | FSEntry.dir name entries, relDir =>
    if shouldExcludeDir name cfg.excludeDirs then []
    else walkFilesList cfg root entries (relJoin relDir name)
def walkFilesList (cfg : ScanOptions) (root : String) :
    List FSEntry → String → List WalkedFile
  | [], _ => []
  | e :: es, relDir =>
    walkFilesEntry cfg root e relDir ++ walkFilesList cfg root es relDir
end

/-- The `FileInfo` the enhanced `StreamingScanner.processFile`
(streaming_v2.go) builds for one statable file: fast-path classification,
then — only when content is to be included and the fast path said text —
the read with content-based language fallback, the (unreachable) isText
re-check, and the transform pipeline. -/
def mkStreamRecord (cfg : ScanOptions) (wf : WalkedFile) : FileInfo :=
  let language := detectLanguage wf.path
  let extension := fileExt wf.path
  let isText0 := isTextFile wf.path extension
  let base : FileInfo :=
    ⟨wf.path, wf.rel, wf.size, formatBytes wf.size, wf.mtime, wf.mtime,
     "", language, 0, extension, isText0⟩
  if cfg.includeContent ∧ isText0 then
    match wf.content with
    | none => base
    | some bytes =>
      let lang1 := if language = "" then detectLanguageFromContent wf.path bytes else language
      let isText1 := if ¬ isText0 ∧ isTextContent bytes then true else isText0
      let processed := processFileContent (String.mk bytes) lang1 cfg
      { base with language := lang1, isText := isText1,
                  content := processed, lineCount := countLines processed }
  else base

/-- Streaming scan state: the running statistics, the recorded error list and
the trace of records handed to the per-file callback. -/
structure StreamAcc where
  stats : StreamingStats
  errors : List ScanErrorM
  emitted : List FileInfo
deriving Repr, DecidableEq

/-- Translation of the enhanced `StreamingScanner.processFile`: stat failure
records an error and returns it (no statistics update); otherwise the record
is built, read failures are recorded, statistics are updated from the final
record, the record is passed to the sink, and a sink failure records a
non-skipped error and returns an error wrapping the path. The returned flag
is the non-nil-ness of the Go return value. -/
def processFile (cfg : ScanOptions) (sinkOk : FileInfo → Bool) (root : String)
    (name relDir : String) (size : Int) (mtime : String) (statErr : Bool)
    (content : Option (List Char)) (acc : StreamAcc) : StreamAcc × Bool :=
  let rel := relJoin relDir name
  let path := root ++ "/" ++ rel
  if statErr then
    ({ acc with errors := acc.errors ++ [⟨path, "stat", true⟩] }, true)
  else
    let wf : WalkedFile := ⟨path, rel, size, mtime, content⟩
    let readFailed :=
      cfg.includeContent ∧ isTextFile path (fileExt path) ∧ content = none
    let acc1 :=
      if readFailed then { acc with errors := acc.errors ++ [⟨path, "read", true⟩] } else acc
    let record := mkStreamRecord cfg wf
    let stats1 :=
      { acc1.stats with totalFiles := acc1.stats.totalFiles + 1,
                        totalSize := acc1.stats.totalSize + size }
    let stats2 :=
      if record.isText then { stats1 with textFiles := stats1.textFiles + 1 }
      else { stats1 with binaryFiles := stats1.binaryFiles + 1 }
    let stats3 :=
      if record.language ≠ "" then
        { stats2 with languageCounts := bumpLang stats2.languageCounts record.language }
      else stats2
    let acc2 := { acc1 with stats := stats3, emitted := acc1.emitted ++ [record] }
    if sinkOk record then (acc2, false)
    else ({ acc2 with errors := acc2.errors ++ [⟨path, "write", false⟩] }, true)

/-! Translation of the phase-2 walk of the enhanced `StreamingScanner.Scan`:
a callback error entry is recorded and skipped; excluded directories are
pruned; included files go through `processFile`, whose error the callback
swallows (`return nil // Continue scanning`); the walk itself therefore never
returns an error. -/
mutual
def streamWalkEntry (cfg : ScanOptions) (sinkOk : FileInfo → Bool) (root : String) :
    FSEntry → String → StreamAcc → StreamAcc
  | FSEntry.errEntry name, relDir, acc =>
    { acc with errors := acc.errors ++ [⟨root ++ "/" ++ relJoin relDir name, "scan", true⟩] }
  | FSEntry.file name size mtime statErr content, relDir, acc =>
    if shouldIncludeFile (root ++ "/" ++ relJoin relDir name) cfg.includeExts then
      (processFile cfg sinkOk root name relDir size mtime statErr content acc).1
    else acc
  | FSEntry.dir name entries, relDir, acc =>
    if shouldExcludeDir name cfg.excludeDirs then acc
    else streamWalkList cfg sinkOk root entries (relJoin relDir name) acc
def streamWalkList (cfg : ScanOptions) (sinkOk : FileInfo → Bool) (root : String) :
    List FSEntry → String → StreamAcc → StreamAcc
  | [], _, acc => acc
  | e :: es, relDir, acc =>
    streamWalkList cfg sinkOk root es relDir (streamWalkEntry cfg sinkOk root e relDir acc)
end

/-! Translation of `StreamingScanner.collectPaths` (phase 1): walk errors are
only logged, excluded directories pruned, and the relative paths of included
files collected (a stat failure does not prevent collection — `d.Info()` is
never called here). -/
mutual
def collectPathsEntry (cfg : ScanOptions) (root : String) :
    FSEntry → String → List String → List String
  | FSEntry.errEntry _, _, ps => ps
  | FSEntry.file name _ _ _ _, relDir, ps =>
    if shouldIncludeFile (root ++ "/" ++ relJoin relDir name) cfg.includeExts then
      ps ++ [relJoin relDir name]
    else ps
  | FSEntry.dir name entries, relDir, ps =>
    if shouldExcludeDir name cfg.excludeDirs then ps
    else collectPathsList cfg root entries (relJoin relDir name) ps
def collectPathsList (cfg : ScanOptions) (root : String) :
    List FSEntry → String → List String → List String
  | [], _, ps => ps
  | e :: es, relDir, ps =>
    collectPathsList cfg root es relDir (collectPathsEntry cfg root e relDir ps)
end

/-- Outcome of the enhanced `StreamingScanner.Scan`: the stats pointer (nil
exactly when phase 1 failed), the recorded errors, the trace of sink calls,
the phase-1 path list, and the returned error. -/
structure StreamResult where
  stats : Option StreamingStats
  errors : List ScanErrorM
  emitted : List FileInfo
  filePaths : List String
  err : Option String
deriving Repr, DecidableEq

/-- Translation of the enhanced `StreamingScanner.Scan`. `sinkOk` is the
caller-supplied per-file callback (true = nil error), `treeWriterOk` stands
for the caller-supplied tree writer's outcome. `WalkDir` first visits the
root directory itself: when the root's basename is excluded the whole walk is
skipped with a nil error. The phase-2 walk always returns a nil error (its
callback swallows every `processFile` failure). -/
def streamScan (cfg : ScanOptions) (sinkOk : FileInfo → Bool) (treeWriterOk : Bool)
    (root : String) (entries : List FSEntry) : StreamResult :=
  let rootExcluded := shouldExcludeDir (baseName root) cfg.excludeDirs
  if cfg.includeDirectoryTree then
    let paths := if rootExcluded then [] else collectPathsList cfg root entries "" []
    if ¬ treeWriterOk then ⟨none, [], [], paths, some "failed to write tree"⟩
    else
      let acc :=
        if rootExcluded then ⟨emptyStats, [], []⟩
        else streamWalkList cfg sinkOk root entries "" ⟨emptyStats, [], []⟩
      ⟨some acc.stats, acc.errors, acc.emitted, paths, none⟩
  else
    let acc :=
      if rootExcluded then ⟨emptyStats, [], []⟩
      else streamWalkList cfg sinkOk root entries "" ⟨emptyStats, [], []⟩
    ⟨some acc.stats, acc.errors, acc.emitted, [], none⟩

/-- The `FileInfo` built by the older batch `AnalysisScanner.Scan`
(scanner/analysis.go): same fast path, but no content-based language
detection and no isText re-check; a read failure silently leaves content
empty. -/
def mkBatchRecord (cfg : ScanOptions) (wf : WalkedFile) : FileInfo :=
  let language := detectLanguage wf.path
  let extension := fileExt wf.path
  let isText0 := isTextFile wf.path extension
  let base : FileInfo :=
    ⟨wf.path, wf.rel, wf.size, formatBytes wf.size, wf.mtime, wf.mtime,
     "", language, 0, extension, isText0⟩
  if cfg.includeContent ∧ isText0 then
    match wf.content with
    | none => base
    | some bytes =>
      let processed := processFileContent (String.mk bytes) language cfg
      { base with content := processed, lineCount := countLines processed }
  else base

/-- Batch accumulation state (the `ScanResult` counters built up during the
walk of scanner/analysis.go). -/
structure BatchAcc where
  files : List FileInfo
  totalFiles : Int
  totalSize : Int
  textFiles : Int
  binaryFiles : Int
  languageCounts : List (String × Int)
deriving Repr, DecidableEq

/-- One file step of the older batch `AnalysisScanner.Scan` callback: append
the record and update the counters. -/
def batchFileStep (record : FileInfo) (size : Int)
    (acc : BatchAcc) : BatchAcc :=
  let acc1 :=
    { acc with files := acc.files ++ [record],
               totalFiles := acc.totalFiles + 1,
               totalSize := acc.totalSize + size }
  let acc2 :=
    if record.isText then { acc1 with textFiles := acc1.textFiles + 1 }
    else { acc1 with binaryFiles := acc1.binaryFiles + 1 }
  if record.language ≠ "" then
    { acc2 with languageCounts := bumpLang acc2.languageCounts record.language }
  else acc2

/-! Translation of the walk inside the older batch `AnalysisScanner.Scan`
(scanner/analysis.go, lines 82-141): a callback error or a `d.Info()` failure
is returned from the callback, which makes `filepath.WalkDir` abort and
becomes the scan's error; otherwise the record is appended and the counters
updated. Returns the state reached and the walk's error. -/
mutual
def batchWalkEntry (cfg : ScanOptions) (root : String) :
    FSEntry → String → BatchAcc → BatchAcc × Option String
  | FSEntry.errEntry name, relDir, acc =>
    (acc, some ("walk " ++ root ++ "/" ++ relJoin relDir name))
  | FSEntry.file name size mtime statErr content, relDir, acc =>
    let rel := relJoin relDir name
    let path := root ++ "/" ++ rel
    if shouldIncludeFile path cfg.includeExts then
      if statErr then (acc, some ("stat " ++ path))
      else (batchFileStep (mkBatchRecord cfg ⟨path, rel, size, mtime, content⟩) size acc, none)
    else (acc, none)
  | FSEntry.dir name entries, relDir, acc =>
    if shouldExcludeDir name cfg.excludeDirs then (acc, none)
    else batchWalkList cfg root entries (relJoin relDir name) acc
def batchWalkList (cfg : ScanOptions) (root : String) :
    List FSEntry → String → BatchAcc → BatchAcc × Option String
  | [], _, acc => (acc, none)
  | e :: es, relDir, acc =>
    match batchWalkEntry cfg root e relDir acc with
    | (acc1, some msg) => (acc1, some msg)
    | (acc1, none) => batchWalkList cfg root es relDir acc1
end

/-- Outcome of the older batch `AnalysisScanner.Scan`: the (partially filled,
finally sorted) result and the walk's error, both returned together as in the
source. -/
structure ScanResultB where
  repoPath : String
  files : List FileInfo
  totalFiles : Int
  totalSize : Int
  textFiles : Int
  binaryFiles : Int
  languageCounts : List (String × Int)
  err : Option String
deriving Repr, DecidableEq

/-- Translation of the older batch `AnalysisScanner.Scan`
(scanner/analysis.go): walk, then sort the collected files by relative path
(`sort.Slice` is an unspecified sorting algorithm; insertion sort produces a
sorted permutation as it does), and return the result together with the
walk's error. -/
def batchScan (cfg : ScanOptions) (root : String) (entries : List FSEntry) : ScanResultB :=
  let start : BatchAcc := ⟨[], 0, 0, 0, 0, []⟩
  let res :=
    if shouldExcludeDir (baseName root) cfg.excludeDirs then (start, none)
    else batchWalkList cfg root entries "" start
  ⟨root,
   res.1.files.insertionSort (fun a b => a.relativePath < b.relativePath),
   res.1.totalFiles, res.1.totalSize, res.1.textFiles, res.1.binaryFiles,
   res.1.languageCounts, res.2⟩

/-! ## Streaming JSON writer (output/streaming_json.go) -/

/-- Mirrors `config.OutputOptions`. -/
structure OutputOptions where
  includeSummary : Bool
  includeDirectoryTree : Bool
  showLineNumbers : Bool
  includeContent : Bool
  removeComments : Bool
  removeEmptyLines : Bool
  compressCode : Bool
deriving Repr, DecidableEq

def hexDigitCh (n : Nat) : Char := "0123456789abcdef".data.getD n '0'

/-- How `encoding/json` escapes one character inside a string literal (the
default encoder with HTML escaping, as `json.Marshal` uses). -/
def goJsonEscapeChar (c : Char) : List Char :=
  if c = '"' then ['\\', '"']
  else if c = '\\' then ['\\', '\\']
  else if c = '\n' then ['\\', 'n']
  else if c = '\r' then ['\\', 'r']
  else if c = '\t' then ['\\', 't']
  else if c = '<' then "\\u003c".data
  else if c = '>' then "\\u003e".data
  else if c = '&' then "\\u0026".data
  else if c.toNat < 0x20 then
    "\\u00".data ++ [hexDigitCh (c.toNat / 16), hexDigitCh (c.toNat % 16)]
  else if c.toNat = 0x2028 then "\\u2028".data
  else if c.toNat = 0x2029 then "\\u2029".data
  else [c]

/-- Translation of `jsonString(s)`: `json.Marshal` of a Go string. -/
def jsonString (s : String) : String :=
  String.mk ('"' :: (s.data.map goJsonEscapeChar).flatten ++ ['"'])

/-- Translation of `filepath.Dir` for the slash-normalized paths used here. -/
def filepathDir (path : String) : String :=
  let rest := path.data.reverse.dropWhile (fun c => c ≠ '/')
  match rest with
  | [] => "."
  | ['/'] => "/"
  | _ :: tail => String.mk tail.reverse

/-- Models `strings.Split(s, "/")`. -/
def splitSlash : List Char → List (List Char)
  | [] => [[]]
  | c :: rest =>
    if c = '/' then [] :: splitSlash rest
    else
      match splitSlash rest with
      | [] => [[c]]
      | l :: ls => (c :: l) :: ls

def joinSlash (ls : List (List Char)) : List Char := List.intercalate ['/'] ls

/-- Translation of `GenerateDirectoryTree(files)` (output/tree.go): project
root line, then for every file each unprocessed prefix of its relative path
becomes one indented line (`name/` for directories, `name` for the final
element); the `processed` set is modelled as the list of prefixes already
emitted. -/
def generateDirectoryTree (files : List FileInfo) : String :=
  if files.length = 0 then ""
  else
    let projectRoot :=
      match files with
      | f :: _ =>
        if f.path ≠ "" then
          let dir := filepathDir f.path
          if dir ≠ "." ∧ dir ≠ "/" then baseName dir else "project"
        else "project"
      | [] => "project"
    let res := files.foldl
      (fun (st : List (List Char) × List Char) file =>
        let parts := splitSlash file.relativePath.data
        (List.range parts.length).foldl
          (fun (st2 : List (List Char) × List Char) i =>
            let pathSoFar := joinSlash (parts.take (i + 1))
            if st2.1.contains pathSoFar then st2
            else
              let indent := List.replicate (2 * (i + 1)) ' '
              let nm := parts.getD i []
              let line :=
                if i = parts.length - 1 then indent ++ nm ++ ['\n']
                else indent ++ nm ++ ['/', '\n']
              (pathSoFar :: st2.1, st2.2 ++ line))
          st)
      ([], [])
    String.mk (projectRoot.data ++ ['/', '\n'] ++ res.2)

/-- The output of `StreamingJSONWriter.WriteHeader(repoPath, scanTime)`: the
opening brace, the repo metadata fields, and the opening of the `files`
array, exactly as the `fmt.Sprintf` template lays them out. -/
def writeHeaderS (repoPath scanTime : String) : String :=
  "\x7b\n  \"repo_path\": " ++ jsonString repoPath ++
  ",\n  \"scan_time\": " ++ jsonString scanTime ++
  ",\n  \"processed_by\": \"CodeEcho CLI\",\n  \"files\": [\n"

/-- The output of `StreamingJSONWriter.WriteTree(paths)`: nothing when the
tree is not requested or there are no paths; otherwise the
`"directory_tree"` field rendered from minimal `FileInfo` values carrying
only the relative path. -/
def writeTreeS (opts : OutputOptions) (paths : List String) : String :=
  if ¬ opts.includeDirectoryTree ∨ paths.length = 0 then ""
  else
    let fileInfos := paths.map
      (fun p => (⟨"", p, 0, "", "", "", "", "", 0, "", false⟩ : FileInfo))
    "  \"directory_tree\": " ++ jsonString (generateDirectoryTree fileInfos) ++ ",\n"

/-- `json.MarshalIndent(file, "    ", "  ")` for a `FileInfo`: fields in
declaration order, `omitempty` dropping zero-valued content, language,
line_count and extension; each member on its own line behind
prefix+indent. -/
def marshalIndentFileInfo (f : FileInfo) : String :=
  let fields : List (List Char) :=
    [("\"path\": ").data ++ (jsonString f.path).data,
     ("\"relative_path\": ").data ++ (jsonString f.relativePath).data,
     ("\"size\": ").data ++ (toString f.size).data,
     ("\"size_formatted\": ").data ++ (jsonString f.sizeFormatted).data,
     ("\"mod_time\": ").data ++ (jsonString f.modTime).data,
     ("\"mod_time_formatted\": ").data ++ (jsonString f.modTimeFormatted).data]
    ++ (if f.content ≠ "" then [("\"content\": ").data ++ (jsonString f.content).data] else [])
    ++ (if f.language ≠ "" then [("\"language\": ").data ++ (jsonString f.language).data] else [])
    ++ (if f.lineCount ≠ 0 then [("\"line_count\": ").data ++ (toString f.lineCount).data] else [])
    ++ (if f.extension ≠ "" then [("\"extension\": ").data ++ (jsonString f.extension).data] else [])
    ++ [("\"is_text\": ").data ++ (if f.isText then "true" else "false").data]
  String.mk (Char.ofNat 0x7b ::
    ("\n      ".data ++ List.intercalate (",\n      ".data) fields ++ "\n    ".data ++
     [Char.ofNat 0x7d]))

/-- The output of one `StreamingJSONWriter.WriteFile(file)` call and the new
`firstFile` flag: a separating comma for every record after the first, four
spaces, then the indent-marshalled record. (The writer's private statistics
accumulation never reaches the output — `WriteFooter` renders its argument —
and is not modelled.) -/
def writeFileS (firstFile : Bool) (f : FileInfo) : String × Bool :=
  ((if ¬ firstFile then ",\n" else "") ++ "    " ++ marshalIndentFileInfo f, false)

/-- The output of `StreamingJSONWriter.WriteFooter(stats)`: closing of the
files array and the statistics object, per the `fmt.Sprintf` template. -/
def writeFooterS (stats : StreamingStats) : String :=
  "\n  ],\n  \"statistics\": \x7b\n    \"total_files\": " ++ toString stats.totalFiles ++
  ",\n    \"total_size\": " ++ jsonString (formatBytes stats.totalSize) ++
  ",\n    \"text_files\": " ++ toString stats.textFiles ++
  ",\n    \"binary_files\": " ++ toString stats.binaryFiles ++
  "\n  \x7d\n\x7d\n"

/-- Replay of the sink contract in the mandated order against the streaming
JSON renderer: `WriteHeader` once, `WriteTree` once, `WriteFile` for each
record (threading the `firstFile` flag), `WriteFooter` once, `Close` (which
only flushes and emits nothing). The result is the full byte stream
written. -/
def replayJSONWriter (opts : OutputOptions) (repoPath scanTime : String)
    (paths : List String) (files : List FileInfo) (stats : StreamingStats) : String :=
  writeHeaderS repoPath scanTime ++ writeTreeS opts paths ++
  (files.foldl (fun (st : String × Bool) f =>
      let r := writeFileS st.2 f
      (st.1 ++ r.1, r.2)) ("", true)).1 ++
  writeFooterS stats

/-! An error-free tree: no walk-error entries and no stat failures anywhere. -/
mutual
def cleanEntry : FSEntry → Bool
  | FSEntry.errEntry _ => false
  | FSEntry.file _ _ _ statErr _ => !statErr
  | FSEntry.dir _ entries => cleanList entries
def cleanList : List FSEntry → Bool
  | [] => true
  | e :: es => cleanEntry e && cleanList es
end

/-- The comparison key of the batch/streaming round-trip property without the
language component: `{relativePath, sizeBytes, isText}`. -/
def fileKey3 (r : FileInfo) : String × Int × Bool :=
  (r.relativePath, r.size, r.isText)

/-- The full comparison key of the batch/streaming round-trip property:
`{relativePath, sizeBytes, language, isText}`. -/
def fileKey4 (r : FileInfo) : String × Int × String × Bool :=
  (r.relativePath, r.size, r.language, r.isText)

/-! ## Lemmas about the line-comment replacement (for idempotence) -/

theorem cutAtFirst_isPre (pat : List Char) : ∀ s : List Char, cutAtFirst pat s <+: s := by
  intro s
  induction s with
  | nil => simp [cutAtFirst]
  | cons c rest ih =>
    by_cases h : pat.isPrefixOf (c :: rest)
    · simp [cutAtFirst, h]
    · simpa [cutAtFirst, h] using ih

theorem isPrefixOf_of_pre_of_pre {m t s : List Char}
    (h1 : m.isPrefixOf t = true) (h2 : t <+: s) : m.isPrefixOf s = true :=
  List.isPrefixOf_iff_prefix.mpr ((List.isPrefixOf_iff_prefix.mp h1).trans h2)

theorem cutAtFirst_idem (pat : List Char) :
    ∀ s : List Char, cutAtFirst pat (cutAtFirst pat s) = cutAtFirst pat s := by
  intro s
  induction s with
  | nil => simp [cutAtFirst]
  | cons c rest ih =>
    by_cases h : pat.isPrefixOf (c :: rest)
    · simp [cutAtFirst, h]
    · have hnot : ¬ pat.isPrefixOf (c :: cutAtFirst pat rest) = true := by
        intro hyes
        refine h (isPrefixOf_of_pre_of_pre hyes ?_)
        obtain ⟨t, ht⟩ := cutAtFirst_isPre pat rest
        exact ⟨t, by simp [ht]⟩
      simp [cutAtFirst, h, hnot, ih]

theorem no_nl_of_mem_splitNl : ∀ (s : List Char) (l : List Char),
    l ∈ splitNl s → '\n' ∉ l := by
  intro s
  induction s with
  | nil => intro l hl; simp [splitNl] at hl; simp [hl]
  | cons c rest ih =>
    intro l hl
    by_cases h : c = '\n'
    · simp [splitNl, h] at hl
      rcases hl with h1 | h1
      · simp [h1]
      · exact ih l h1
    · simp only [splitNl, if_neg h] at hl
      rcases hrec : splitNl rest with _ | ⟨l0, ls⟩
      · simp [hrec] at hl
        intro hc
        rcases hl with rfl
        rcases (List.mem_singleton.mp hc) with rfl
        exact h rfl
      · simp [hrec] at hl
        rcases hl with h1 | h1
        · intro hc
          rcases h1 with rfl
          rcases List.mem_cons.mp hc with rfl | hc2
          · exact h rfl
          · exact ih l0 (by simp [hrec]) hc2
        · exact ih l (by simp [hrec, h1])

theorem splitNl_ne_nil : ∀ s : List Char, splitNl s ≠ [] := by
  intro s
  cases s with
  | nil => simp [splitNl]
  | cons c rest =>
    by_cases h : c = '\n'
    · simp [splitNl, h]
    · simp only [splitNl, if_neg h]
      rcases hrec : splitNl rest with _ | ⟨l0, ls⟩ <;> simp

theorem splitNl_single : ∀ l : List Char, '\n' ∉ l → splitNl l = [l] := by
  intro l
  induction l with
  | nil => intro _; rfl
  | cons c rest ih =>
    intro h
    have hc : ¬ c = '\n' := fun hh => h (by simp [hh])
    have hr : '\n' ∉ rest := fun hh => h (by simp [hh])
    simp [splitNl, hc, ih hr]

theorem splitNl_append_cons : ∀ (l t : List Char), '\n' ∉ l →
    splitNl (l ++ '\n' :: t) = l :: splitNl t := by
  intro l
  induction l with
  | nil => intro t _; simp [splitNl]
  | cons c rest ih =>
    intro t h
    have hc : ¬ c = '\n' := fun hh => h (by simp [hh])
    have hr : '\n' ∉ rest := fun hh => h (by simp [hh])
    simp only [List.cons_append, splitNl, if_neg hc, List.append_eq, ih t hr]

theorem splitNl_joinNl : ∀ ls : List (List Char), ls ≠ [] →
    (∀ l ∈ ls, '\n' ∉ l) → splitNl (joinNl ls) = ls := by
  intro ls
  induction ls with
  | nil => intro h; exact absurd rfl h
  | cons l rest ih =>
    intro _ hnl
    cases rest with
    | nil =>
      simp [joinNl, List.intercalate]
      exact splitNl_single l (hnl l (by simp))
    | cons l2 rest2 =>
      have hjoin : joinNl (l :: l2 :: rest2) = l ++ '\n' :: joinNl (l2 :: rest2) := by
        simp [joinNl, List.intercalate]
      rw [hjoin, splitNl_append_cons l _ (hnl l (by simp))]
      rw [ih (by simp) (fun x hx => hnl x (by simp [hx]))]

theorem mapLast_ne_nil {f : List Char → List Char} :
    ∀ ls : List (List Char), ls ≠ [] → mapLast f ls ≠ [] := by
  intro ls
  cases ls with
  | nil => intro h; exact absurd rfl h
  | cons l rest =>
    intro _
    cases rest with
    | nil => simp [mapLast]
    | cons l2 rest2 => simp [mapLast]

theorem mapLast_cons_ne (f : List Char → List Char) (l : List Char) :
    ∀ ls : List (List Char), ls ≠ [] → mapLast f (l :: ls) = l :: mapLast f ls := by
  intro ls h
  cases ls with
  | nil => exact absurd rfl h
  | cons a b => rfl

theorem mapLast_mapLast (f g : List Char → List Char) :
    ∀ ls : List (List Char), mapLast f (mapLast g ls) = mapLast (fun l => f (g l)) ls := by
  intro ls
  induction ls with
  | nil => rfl
  | cons l rest ih =>
    cases rest with
    | nil => rfl
    | cons l2 rest2 =>
      rw [mapLast_cons_ne g l (l2 :: rest2) (by simp),
          mapLast_cons_ne f l (mapLast g (l2 :: rest2))
            (mapLast_ne_nil (l2 :: rest2) (by simp)),
          mapLast_cons_ne (fun l => f (g l)) l (l2 :: rest2) (by simp), ih]

theorem mapLast_congr {f g : List Char → List Char} (h : ∀ l, f l = g l) :
    ∀ ls : List (List Char), mapLast f ls = mapLast g ls := by
  intro ls
  induction ls with
  | nil => rfl
  | cons l rest ih =>
    cases rest with
    | nil => simp [mapLast, h]
    | cons l2 rest2 =>
      rw [mapLast_cons_ne f l (l2 :: rest2) (by simp),
          mapLast_cons_ne g l (l2 :: rest2) (by simp), ih]

theorem mem_mapLast {f : List Char → List Char} :
    ∀ (ls : List (List Char)) (x : List Char), x ∈ mapLast f ls →
      x ∈ ls ∨ ∃ l ∈ ls, x = f l := by
  intro ls
  induction ls with
  | nil => intro x hx; simp [mapLast] at hx
  | cons l rest ih =>
    intro x hx
    cases rest with
    | nil =>
      simp [mapLast] at hx
      exact Or.inr ⟨l, by simp, hx⟩
    | cons l2 rest2 =>
      simp only [mapLast, List.mem_cons] at hx
      rcases hx with rfl | hx
      · exact Or.inl (by simp)
      · rcases ih x hx with h1 | ⟨l0, hl0, rfl⟩
        · exact Or.inl (by simp [h1])
        · exact Or.inr ⟨l0, by simp [hl0]⟩

theorem no_nl_cutAtFirst (pat : List Char) (l : List Char) (h : '\n' ∉ l) :
    '\n' ∉ cutAtFirst pat l :=
  fun hc => h ((cutAtFirst_isPre pat l).sublist.mem hc)

/-- The end-of-text line-comment replacement is idempotent: it leaves every
line but the last untouched, and it removes every occurrence of the marker
from the last line. -/
theorem replLineEOT_idem (marker : List Char) (s : List Char) :
    replLineEOT marker (replLineEOT marker s) = replLineEOT marker s := by
  unfold replLineEOT
  have hclean : ∀ l ∈ mapLast (cutAtFirst marker) (splitNl s), '\n' ∉ l := by
    intro l hl
    rcases mem_mapLast (splitNl s) l hl with h1 | ⟨l0, hl0, rfl⟩
    · exact no_nl_of_mem_splitNl s l h1
    · exact no_nl_cutAtFirst marker l0 (no_nl_of_mem_splitNl s l0 hl0)
  rw [splitNl_joinNl (mapLast (cutAtFirst marker) (splitNl s))
      (mapLast_ne_nil (splitNl s) (splitNl_ne_nil s)) hclean]
  rw [mapLast_mapLast]
  exact congrArg joinNl (mapLast_congr (fun l => cutAtFirst_idem marker l) (splitNl s))

/-! ## Claim theorems for the content transformer -/

/-- C3: the comment-stripping scenario. The spec expects
`"x := 1 \n\ny := 2"`, but `stripComments` compiles `//.*$` without `(?m)`,
so in Go's RE2 the `$` anchors only at end of text and the line comment
`// set x` (which is followed by a newline) is never removed; only the block
comment disappears. The code's output on the scenario input is
`"x := 1 // set x\n\ny := 2"`, which still contains the comment text. -/
theorem claim_C3 :
    stripComments "x := 1 // set x\n/* block */\ny := 2" "go"
      = "x := 1 // set x\n\ny := 2" ∧
    stripComments "x := 1 // set x\n/* block */\ny := 2" "go"
      ≠ "x := 1 \n\ny := 2" := by
  constructor
  · decide
  · decide

/-- C4 counterexample: comment removal is not idempotent. On the Go-language
input `"x//*c\n*/*y*/z"` one application yields `"x/*y*/z"` (removing the
block span `/*\n... */` splices `x/` and `*y*/z` into a fresh block
comment), and a second application yields `"xz"`. -/
theorem claim_C4_counterexample :
    ¬ (stripComments (stripComments "x//*c\n*/*y*/z" "go") "go"
        = stripComments "x//*c\n*/*y*/z" "go") := by
  decide

/-- C4 (amended): comment removal is idempotent for the languages whose rule
uses only the end-of-text line-comment replacement (python, ruby) and for
every language outside the comment tables (where it is the identity); for
the block-comment language groups a second application can remove more, as
the counterexample shows. -/
theorem claim_C4 :
    (∀ (c : String) (lang : String), lang = "python" ∨ lang = "ruby" →
      stripComments (stripComments c lang) lang = stripComments c lang) ∧
    (∀ (c : String) (lang : String),
      lang ∉ (["go", "javascript", "typescript", "java", "cpp", "c", "rust", "php",
               "python", "ruby", "html", "xml", "css"] : List String) →
      stripComments c lang = c) := by
  constructor
  · intro c lang hlang
    have hgo : ¬ (lang = "go" ∨ lang = "javascript" ∨ lang = "typescript" ∨
        lang = "java" ∨ lang = "cpp" ∨ lang = "c" ∨ lang = "rust" ∨ lang = "php") := by
      rcases hlang with rfl | rfl <;> simp
    have hpy : lang = "python" ∨ lang = "ruby" := hlang
    simp only [stripComments, if_neg hgo, if_pos hpy]
    exact congrArg String.mk (replLineEOT_idem ['#'] c.data)
  · intro c lang hlang
    simp only [List.mem_cons, List.mem_singleton] at hlang
    push_neg at hlang
    obtain ⟨h1, h2, h3, h4, h5, h6, h7, h8, h9, h10, h11, h12, h13⟩ := hlang
    simp [stripComments, h1, h2, h3, h4, h5, h6, h7, h8, h9, h10, h11, h12, h13]

/-- C4 witness: the amended idempotence applied at concrete inputs. -/
theorem claim_C4_witness :
    stripComments (stripComments "a#b\nc#d" "python") "python"
      = stripComments "a#b\nc#d" "python" ∧
    stripComments "x // y /* z */" "fortran" = "x // y /* z */" :=
  ⟨claim_C4.1 "a#b\nc#d" "python" (Or.inl rfl),
   claim_C4.2 "x // y /* z */" "fortran" (by decide)⟩

/-- C10: with all three transform flags disabled, the content pipeline is the
identity on every content string and language. -/
theorem claim_C10 :
    ∀ (content language : String) (opts : ScanOptions),
      opts.removeComments = false → opts.removeEmptyLines = false →
      opts.compressCode = false →
      processFileContent content language opts = content := by
  intro content language opts h1 h2 h3
  simp [processFileContent, h1, h2, h3]

/-- C10 witness: the identity at a concrete input with all flags false. -/
theorem claim_C10_witness :
    processFileContent "x := 1 // keep\n\n  y" "go"
      ⟨false, false, false, false, false, false, false, [], [], true⟩
      = "x := 1 // keep\n\n  y" :=
  claim_C10 "x := 1 // keep\n\n  y" "go"
    ⟨false, false, false, false, false, false, false, [], [], true⟩ rfl rfl rfl

/-! ## Lemmas about the scan engines -/

theorem sizeE_pos : ∀ e : FSEntry, 1 ≤ sizeE e := by
  intro e
  cases e <;> simp [sizeE]

theorem sizeL_pos : ∀ l : List FSEntry, 1 ≤ sizeL l := by
  intro l
  cases l with
  | nil => simp [sizeL]
  | cons e es => simp [sizeL]; have := sizeE_pos e; omega

theorem mkStreamRecord_path (cfg : ScanOptions) (wf : WalkedFile) :
    (mkStreamRecord cfg wf).path = wf.path := by
  simp only [mkStreamRecord]
  split
  · split <;> rfl
  · rfl

theorem mkStreamRecord_rel (cfg : ScanOptions) (wf : WalkedFile) :
    (mkStreamRecord cfg wf).relativePath = wf.rel := by
  simp only [mkStreamRecord]
  split
  · split <;> rfl
  · rfl

theorem mkStreamRecord_size (cfg : ScanOptions) (wf : WalkedFile) :
    (mkStreamRecord cfg wf).size = wf.size := by
  simp only [mkStreamRecord]
  split
  · split <;> rfl
  · rfl

theorem mkStreamRecord_ext (cfg : ScanOptions) (wf : WalkedFile) :
    (mkStreamRecord cfg wf).extension = fileExt wf.path := by
  simp only [mkStreamRecord]
  split
  · split <;> rfl
  · rfl

/-- The isText re-check inside `processFile` is unreachable: content is read
only when the fast path already said text, so every record's isText equals
the fast-path classification. -/
theorem mkStreamRecord_isText (cfg : ScanOptions) (wf : WalkedFile) :
    (mkStreamRecord cfg wf).isText = isTextFile wf.path (fileExt wf.path) := by
  simp only [mkStreamRecord]
  split
  · rename_i h
    split
    · rfl
    · simp [h.2]
  · rfl

/-- Content is populated only in the branch guarded by content inclusion and
a positive fast path with a successful read. -/
theorem mkStreamRecord_content (cfg : ScanOptions) (wf : WalkedFile) :
    (mkStreamRecord cfg wf).content ≠ "" →
      cfg.includeContent = true ∧ (mkStreamRecord cfg wf).isText = true := by
  intro hne
  rw [mkStreamRecord_isText cfg wf]
  revert hne
  simp only [mkStreamRecord]
  split
  · rename_i h
    split
    · intro hne; exact absurd rfl hne
    · intro _
      exact ⟨h.1, by simp [h.2]⟩
  · intro hne; exact absurd rfl hne

theorem mkStreamRecord_read_failed (cfg : ScanOptions) (wf : WalkedFile)
    (h : wf.content = none) : (mkStreamRecord cfg wf).content = "" := by
  simp only [mkStreamRecord]
  split
  · rw [h]
  · rfl

/-- With content inclusion disabled the streaming and batch records coincide
entirely. -/
theorem mkRecords_eq_noContent (cfg : ScanOptions) (wf : WalkedFile)
    (h : cfg.includeContent = false) :
    mkStreamRecord cfg wf = mkBatchRecord cfg wf := by
  simp [mkStreamRecord, mkBatchRecord, h]

/-- The streaming and batch records agree on relative path, size and isText
for every file and configuration. -/
theorem fileKey3_mk_eq (cfg : ScanOptions) (wf : WalkedFile) :
    fileKey3 (mkStreamRecord cfg wf) = fileKey3 (mkBatchRecord cfg wf) := by
  have hb1 : (mkBatchRecord cfg wf).relativePath = wf.rel := by
    simp only [mkBatchRecord]; split
    · split <;> rfl
    · rfl
  have hb2 : (mkBatchRecord cfg wf).size = wf.size := by
    simp only [mkBatchRecord]; split
    · split <;> rfl
    · rfl
  have hb3 : (mkBatchRecord cfg wf).isText = isTextFile wf.path (fileExt wf.path) := by
    simp only [mkBatchRecord]; split
    · split <;> rfl
    · rfl
  simp [fileKey3, mkStreamRecord_rel, mkStreamRecord_size, mkStreamRecord_isText,
        hb1, hb2, hb3]

theorem processFile_emitted (cfg : ScanOptions) (sinkOk : FileInfo → Bool)
    (root name relDir : String) (size : Int) (mtime : String) (statErr : Bool)
    (content : Option (List Char)) (acc : StreamAcc) :
    ((processFile cfg sinkOk root name relDir size mtime statErr content acc).1).emitted =
      acc.emitted ++
        (if statErr then [] else
          [mkStreamRecord cfg
            ⟨root ++ "/" ++ relJoin relDir name, relJoin relDir name, size, mtime, content⟩]) := by
  by_cases hs : statErr
  · simp [processFile, hs]
  · simp only [processFile, if_neg hs, if_neg (by simp [hs] : ¬ statErr = true)]
    split_ifs <;> simp [hs]

theorem processFile_errors_shift (cfg : ScanOptions) (sinkOk : FileInfo → Bool)
    (root name relDir : String) (size : Int) (mtime : String) (statErr : Bool)
    (content : Option (List Char)) (st : StreamingStats) (errs : List ScanErrorM)
    (em : List FileInfo) (E : List ScanErrorM) :
    processFile cfg sinkOk root name relDir size mtime statErr content ⟨st, E ++ errs, em⟩ =
      (⟨(processFile cfg sinkOk root name relDir size mtime statErr content ⟨st, errs, em⟩).1.stats,
        E ++ (processFile cfg sinkOk root name relDir size mtime statErr content ⟨st, errs, em⟩).1.errors,
        (processFile cfg sinkOk root name relDir size mtime statErr content ⟨st, errs, em⟩).1.emitted⟩,
       (processFile cfg sinkOk root name relDir size mtime statErr content ⟨st, errs, em⟩).2) := by
  by_cases hs : statErr
  · simp [processFile, hs]
  · simp only [processFile, if_neg hs, if_neg (by simp [hs] : ¬ statErr = true)]
    split_ifs <;> simp

theorem processFile_statsInv (cfg : ScanOptions) (sinkOk : FileInfo → Bool)
    (root name relDir : String) (size : Int) (mtime : String) (statErr : Bool)
    (content : Option (List Char)) (acc : StreamAcc)
    (h : acc.stats.totalFiles = acc.stats.textFiles + acc.stats.binaryFiles) :
    ((processFile cfg sinkOk root name relDir size mtime statErr content acc).1).stats.totalFiles =
      ((processFile cfg sinkOk root name relDir size mtime statErr content acc).1).stats.textFiles +
      ((processFile cfg sinkOk root name relDir size mtime statErr content acc).1).stats.binaryFiles := by
  by_cases hs : statErr
  · simpa [processFile, hs] using h
  · simp only [processFile, if_neg hs, if_neg (by simp [hs] : ¬ statErr = true)]
    split_ifs <;> simp <;> omega

/-- The records the enhanced streaming walk hands to the sink are exactly the
walked files' stream records, appended to whatever was emitted before —
independent of the sink's outcomes and of recorded errors. -/
theorem streamWalkList_emitted (cfg : ScanOptions) (sinkOk : FileInfo → Bool)
    (root : String) : ∀ (entries : List FSEntry) (relDir : String) (acc : StreamAcc),
    (streamWalkList cfg sinkOk root entries relDir acc).emitted =
      acc.emitted ++ (walkFilesList cfg root entries relDir).map (mkStreamRecord cfg) := by
  suffices H : ∀ n (entries : List FSEntry), sizeL entries ≤ n →
      ∀ (relDir : String) (acc : StreamAcc),
      (streamWalkList cfg sinkOk root entries relDir acc).emitted =
        acc.emitted ++ (walkFilesList cfg root entries relDir).map (mkStreamRecord cfg) by
    exact fun entries => H (sizeL entries) entries le_rfl
  intro n
  induction n with
  | zero =>
    intro entries h
    have := sizeL_pos entries
    omega
  | succ n ih =>
    intro entries h relDir acc
    cases entries with
    | nil => simp [streamWalkList, walkFilesList]
    | cons e es =>
      have hes : sizeL es ≤ n := by
        have := sizeE_pos e
        simp [sizeL] at h
        omega
      cases e with
      | errEntry nm =>
        simp only [streamWalkList, streamWalkEntry, walkFilesList, walkFilesEntry]
        rw [ih es hes relDir _]
        simp
      | file nm size mtime statErr content =>
        simp only [streamWalkList, streamWalkEntry, walkFilesList, walkFilesEntry]
        by_cases hinc : shouldIncludeFile (root ++ "/" ++ relJoin relDir nm) cfg.includeExts = true
        · rw [if_pos hinc, ih es hes relDir _, processFile_emitted]
          by_cases hstat : statErr
          · simp [hstat, hinc]
          · simp [hstat, hinc]
        · rw [if_neg hinc, ih es hes relDir acc]
          have hno : ¬ (shouldIncludeFile (root ++ "/" ++ relJoin relDir nm) cfg.includeExts = true
              ∧ ¬ statErr = true) := fun hc => hinc hc.1
          simp only [if_neg hno, List.map_nil, List.nil_append]
      | dir nm entries2 =>
        have hents : sizeL entries2 ≤ n := by
          simp [sizeL, sizeE] at h
          have := sizeL_pos es
          omega
        by_cases hex : shouldExcludeDir nm cfg.excludeDirs = true
        · simp only [streamWalkList, streamWalkEntry, walkFilesList, walkFilesEntry,
            if_pos hex]
          rw [ih es hes relDir acc]
          simp
        · simp only [streamWalkList, streamWalkEntry, walkFilesList, walkFilesEntry,
            if_neg hex]
          rw [ih es hes relDir _, ih entries2 hents _ acc]
          simp [List.append_assoc]

/-- Errors already recorded are carried through the streaming walk unchanged,
in front of the errors the walk itself records; statistics and emitted
records do not depend on them. -/
theorem streamWalkList_errors_shift (cfg : ScanOptions) (sinkOk : FileInfo → Bool)
    (root : String) : ∀ (entries : List FSEntry) (relDir : String)
    (st : StreamingStats) (errs : List ScanErrorM) (em : List FileInfo)
    (E : List ScanErrorM),
    streamWalkList cfg sinkOk root entries relDir ⟨st, E ++ errs, em⟩ =
      { streamWalkList cfg sinkOk root entries relDir ⟨st, errs, em⟩ with
        errors := E ++ (streamWalkList cfg sinkOk root entries relDir ⟨st, errs, em⟩).errors } := by
  suffices H : ∀ n (entries : List FSEntry), sizeL entries ≤ n →
      ∀ (relDir : String) (st : StreamingStats) (errs : List ScanErrorM)
        (em : List FileInfo) (E : List ScanErrorM),
      streamWalkList cfg sinkOk root entries relDir ⟨st, E ++ errs, em⟩ =
        { streamWalkList cfg sinkOk root entries relDir ⟨st, errs, em⟩ with
          errors := E ++ (streamWalkList cfg sinkOk root entries relDir ⟨st, errs, em⟩).errors } by
    exact fun entries => H (sizeL entries) entries le_rfl
  intro n
  induction n with
  | zero =>
    intro entries h
    have := sizeL_pos entries
    omega
  | succ n ih =>
    intro entries h relDir st errs em E
    cases entries with
    | nil => simp [streamWalkList]
    | cons e es =>
      have hes : sizeL es ≤ n := by
        have := sizeE_pos e
        simp [sizeL] at h
        omega
      cases e with
      | errEntry nm =>
        simp only [streamWalkList, streamWalkEntry]
        rw [show (E ++ errs) ++ [(⟨root ++ "/" ++ relJoin relDir nm, "scan", true⟩ : ScanErrorM)]
              = E ++ (errs ++ [⟨root ++ "/" ++ relJoin relDir nm, "scan", true⟩]) by
            simp [List.append_assoc]]
        exact ih es hes relDir st _ em E
      | file nm size mtime statErr content =>
        simp only [streamWalkList, streamWalkEntry]
        by_cases hinc : shouldIncludeFile (root ++ "/" ++ relJoin relDir nm) cfg.includeExts = true
        · rw [if_pos hinc, if_pos hinc]
          rw [processFile_errors_shift]
          rcases hpf : processFile cfg sinkOk root nm relDir size mtime statErr content
              ⟨st, errs, em⟩ with ⟨⟨st1, errs1, em1⟩, flag⟩
          simp only [hpf]
          exact ih es hes relDir st1 errs1 em1 E
        · rw [if_neg hinc, if_neg hinc]
          exact ih es hes relDir st errs em E
      | dir nm entries2 =>
        have hents : sizeL entries2 ≤ n := by
          simp [sizeL, sizeE] at h
          have := sizeL_pos es
          omega
        by_cases hex : shouldExcludeDir nm cfg.excludeDirs = true
        · simp only [streamWalkList, streamWalkEntry, if_pos hex]
          exact ih es hes relDir st errs em E
        · simp only [streamWalkList, streamWalkEntry, if_neg hex]
          rw [ih entries2 hents _ st errs em E]
          rcases hin : streamWalkList cfg sinkOk root entries2 (relJoin relDir nm)
              ⟨st, errs, em⟩ with ⟨st1, errs1, em1⟩
          simp only
          exact ih es hes relDir st1 errs1 em1 E

/-- The streaming statistics invariant `totalFiles = textFiles + binaryFiles`
is preserved by the whole phase-2 walk. -/
theorem streamWalkList_statsInv (cfg : ScanOptions) (sinkOk : FileInfo → Bool)
    (root : String) : ∀ (entries : List FSEntry) (relDir : String) (acc : StreamAcc),
    acc.stats.totalFiles = acc.stats.textFiles + acc.stats.binaryFiles →
    (streamWalkList cfg sinkOk root entries relDir acc).stats.totalFiles =
      (streamWalkList cfg sinkOk root entries relDir acc).stats.textFiles +
      (streamWalkList cfg sinkOk root entries relDir acc).stats.binaryFiles := by
  suffices H : ∀ n (entries : List FSEntry), sizeL entries ≤ n →
      ∀ (relDir : String) (acc : StreamAcc),
      acc.stats.totalFiles = acc.stats.textFiles + acc.stats.binaryFiles →
      (streamWalkList cfg sinkOk root entries relDir acc).stats.totalFiles =
        (streamWalkList cfg sinkOk root entries relDir acc).stats.textFiles +
        (streamWalkList cfg sinkOk root entries relDir acc).stats.binaryFiles by
    exact fun entries => H (sizeL entries) entries le_rfl
  intro n
  induction n with
  | zero =>
    intro entries h
    have := sizeL_pos entries
    omega
  | succ n ih =>
    intro entries h relDir acc hacc
    cases entries with
    | nil => simpa [streamWalkList] using hacc
    | cons e es =>
      have hes : sizeL es ≤ n := by
        have := sizeE_pos e
        simp [sizeL] at h
        omega
      cases e with
      | errEntry nm =>
        simp only [streamWalkList, streamWalkEntry]
        exact ih es hes relDir _ (by simpa using hacc)
      | file nm size mtime statErr content =>
        simp only [streamWalkList, streamWalkEntry]
        by_cases hinc : shouldIncludeFile (root ++ "/" ++ relJoin relDir nm) cfg.includeExts = true
        · rw [if_pos hinc]
          exact ih es hes relDir _
            (processFile_statsInv cfg sinkOk root nm relDir size mtime statErr content acc hacc)
        · rw [if_neg hinc]
          exact ih es hes relDir acc hacc
      | dir nm entries2 =>
        have hents : sizeL entries2 ≤ n := by
          simp [sizeL, sizeE] at h
          have := sizeL_pos es
          omega
        by_cases hex : shouldExcludeDir nm cfg.excludeDirs = true
        · simp only [streamWalkList, streamWalkEntry, if_pos hex]
          exact ih es hes relDir acc hacc
        · simp only [streamWalkList, streamWalkEntry, if_neg hex]
          exact ih es hes relDir _ (ih entries2 hents _ acc hacc)

theorem batchFileStep_files (record : FileInfo) (size : Int) (acc : BatchAcc) :
    (batchFileStep record size acc).files = acc.files ++ [record] := by
  simp only [batchFileStep]
  split_ifs <;> simp

theorem batchFileStep_inv (record : FileInfo) (size : Int) (acc : BatchAcc)
    (h : acc.totalFiles = acc.textFiles + acc.binaryFiles) :
    (batchFileStep record size acc).totalFiles =
      (batchFileStep record size acc).textFiles +
      (batchFileStep record size acc).binaryFiles := by
  simp only [batchFileStep]
  split_ifs <;> simp <;> omega

/-- Over an error-free tree the older batch walk never aborts and collects
exactly the walked files' batch records. -/
theorem batchWalkList_clean (cfg : ScanOptions) (root : String) :
    ∀ (entries : List FSEntry), cleanList entries = true →
    ∀ (relDir : String) (acc : BatchAcc),
    (batchWalkList cfg root entries relDir acc).2 = none ∧
    (batchWalkList cfg root entries relDir acc).1.files =
      acc.files ++ (walkFilesList cfg root entries relDir).map (mkBatchRecord cfg) := by
  suffices H : ∀ n (entries : List FSEntry), sizeL entries ≤ n →
      cleanList entries = true →
      ∀ (relDir : String) (acc : BatchAcc),
      (batchWalkList cfg root entries relDir acc).2 = none ∧
      (batchWalkList cfg root entries relDir acc).1.files =
        acc.files ++ (walkFilesList cfg root entries relDir).map (mkBatchRecord cfg) by
    exact fun entries => H (sizeL entries) entries le_rfl
  intro n
  induction n with
  | zero =>
    intro entries h
    have := sizeL_pos entries
    omega
  | succ n ih =>
    intro entries h hclean relDir acc
    cases entries with
    | nil => simp [batchWalkList, walkFilesList]
    | cons e es =>
      have hes : sizeL es ≤ n := by
        have := sizeE_pos e
        simp [sizeL] at h
        omega
      have hcl : cleanEntry e = true ∧ cleanList es = true := by
        simpa [cleanList, Bool.and_eq_true] using hclean
      cases e with
      | errEntry nm => simp [cleanEntry] at hcl
      | file nm size mtime statErr content =>
        have hstat : statErr = false := by
          rcases hcl with ⟨h1, _⟩
          simpa [cleanEntry] using h1
        subst hstat
        simp only [batchWalkList, batchWalkEntry, walkFilesList, walkFilesEntry]
        by_cases hinc : shouldIncludeFile (root ++ "/" ++ relJoin relDir nm) cfg.includeExts = true
        · rw [if_pos hinc]
          simp only [if_neg (by simp : ¬ (false = true))]
          obtain ⟨he, hf⟩ := ih es hes hcl.2 relDir
            (batchFileStep (mkBatchRecord cfg
              ⟨root ++ "/" ++ relJoin relDir nm, relJoin relDir nm, size, mtime, content⟩) size acc)
          refine ⟨he, ?_⟩
          rw [hf, batchFileStep_files]
          simp [hinc, List.append_assoc]
        · rw [if_neg hinc]
          obtain ⟨he, hf⟩ := ih es hes hcl.2 relDir acc
          refine ⟨he, ?_⟩
          rw [hf]
          have hno : ¬ (shouldIncludeFile (root ++ "/" ++ relJoin relDir nm) cfg.includeExts = true
              ∧ ¬ (false = true)) := fun hc => hinc hc.1
          simp only [if_neg hno, List.map_nil, List.nil_append]
      | dir nm entries2 =>
        have hents : sizeL entries2 ≤ n := by
          simp [sizeL, sizeE] at h
          have := sizeL_pos es
          omega
        have hcl2 : cleanList entries2 = true := by
          rcases hcl with ⟨h1, _⟩
          simpa [cleanEntry] using h1
        by_cases hex : shouldExcludeDir nm cfg.excludeDirs = true
        · simp only [batchWalkList, batchWalkEntry, walkFilesList, walkFilesEntry, if_pos hex]
          obtain ⟨he, hf⟩ := ih es hes hcl.2 relDir acc
          exact ⟨he, by rw [hf]; simp⟩
        · simp only [batchWalkList, batchWalkEntry, walkFilesList, walkFilesEntry, if_neg hex]
          obtain ⟨he2, hf2⟩ := ih entries2 hents hcl2 (relJoin relDir nm) acc
          rcases hrec : batchWalkList cfg root entries2 (relJoin relDir nm) acc with ⟨acc1, err1⟩
          rw [hrec] at he2 hf2
          simp only at he2 hf2
          subst he2
          obtain ⟨he, hf⟩ := ih es hes hcl.2 relDir acc1
          refine ⟨he, ?_⟩
          rw [hf, hf2]
          simp [List.append_assoc]

/-- The batch counters' invariant is preserved by the batch walk, aborted or
not. -/
theorem batchWalkList_inv (cfg : ScanOptions) (root : String) :
    ∀ (entries : List FSEntry) (relDir : String) (acc : BatchAcc),
    acc.totalFiles = acc.textFiles + acc.binaryFiles →
    (batchWalkList cfg root entries relDir acc).1.totalFiles =
      (batchWalkList cfg root entries relDir acc).1.textFiles +
      (batchWalkList cfg root entries relDir acc).1.binaryFiles := by
  suffices H : ∀ n (entries : List FSEntry), sizeL entries ≤ n →
      ∀ (relDir : String) (acc : BatchAcc),
      acc.totalFiles = acc.textFiles + acc.binaryFiles →
      (batchWalkList cfg root entries relDir acc).1.totalFiles =
        (batchWalkList cfg root entries relDir acc).1.textFiles +
        (batchWalkList cfg root entries relDir acc).1.binaryFiles by
    exact fun entries => H (sizeL entries) entries le_rfl
  intro n
  induction n with
  | zero =>
    intro entries h
    have := sizeL_pos entries
    omega
  | succ n ih =>
    intro entries h relDir acc hacc
    cases entries with
    | nil => simpa [batchWalkList] using hacc
    | cons e es =>
      have hes : sizeL es ≤ n := by
        have := sizeE_pos e
        simp [sizeL] at h
        omega
      cases e with
      | errEntry nm => simpa [batchWalkList, batchWalkEntry] using hacc
      | file nm size mtime statErr content =>
        simp only [batchWalkList, batchWalkEntry]
        by_cases hinc : shouldIncludeFile (root ++ "/" ++ relJoin relDir nm) cfg.includeExts = true
        · rw [if_pos hinc]
          by_cases hstat : statErr = true
          · simpa [hstat] using hacc
          · simp only [if_neg hstat]
            exact ih es hes relDir _ (batchFileStep_inv _ size acc hacc)
        · rw [if_neg hinc]
          exact ih es hes relDir acc hacc
      | dir nm entries2 =>
        have hents : sizeL entries2 ≤ n := by
          simp [sizeL, sizeE] at h
          have := sizeL_pos es
          omega
        by_cases hex : shouldExcludeDir nm cfg.excludeDirs = true
        · simp only [batchWalkList, batchWalkEntry, if_pos hex]
          exact ih es hes relDir acc hacc
        · simp only [batchWalkList, batchWalkEntry, if_neg hex]
          have hin := ih entries2 hents (relJoin relDir nm) acc hacc
          rcases hrec : batchWalkList cfg root entries2 (relJoin relDir nm) acc with ⟨acc1, err1⟩
          rw [hrec] at hin
          simp only at hin
          cases err1 with
          | none => exact ih es hes relDir acc1 hin
          | some msg => simpa using hin

/-- Whatever the configuration, the streaming scan's emitted trace is either
empty (tree-writer failure or an excluded root) or exactly the stream records
of the walked files. -/
theorem streamScan_emitted_cases (cfg : ScanOptions) (sinkOk : FileInfo → Bool)
    (treeOk : Bool) (root : String) (entries : List FSEntry) :
    (streamScan cfg sinkOk treeOk root entries).emitted = [] ∨
    (streamScan cfg sinkOk treeOk root entries).emitted =
      (walkFilesList cfg root entries "").map (mkStreamRecord cfg) := by
  simp only [streamScan]
  by_cases hro : shouldExcludeDir (baseName root) cfg.excludeDirs = true <;>
    by_cases ht : cfg.includeDirectoryTree = true <;>
    by_cases htw : treeOk = true <;>
    simp [hro, ht, htw, streamWalkList_emitted]

/-- With a functioning tree writer and a non-excluded root the emitted trace
is exactly the stream records of the walked files. -/
theorem streamScan_emitted_eq (cfg : ScanOptions) (sinkOk : FileInfo → Bool)
    (root : String) (entries : List FSEntry)
    (hro : shouldExcludeDir (baseName root) cfg.excludeDirs = false) :
    (streamScan cfg sinkOk true root entries).emitted =
      (walkFilesList cfg root entries "").map (mkStreamRecord cfg) := by
  simp only [streamScan]
  by_cases ht : cfg.includeDirectoryTree = true <;>
    simp [hro, ht, streamWalkList_emitted]

/-- The statistics pointer a streaming scan returns: nil on a tree-writer
failure, fresh statistics when the root is excluded, and otherwise the
phase-2 walk's statistics. -/
theorem streamScan_stats_cases (cfg : ScanOptions) (sinkOk : FileInfo → Bool)
    (treeOk : Bool) (root : String) (entries : List FSEntry) :
    (streamScan cfg sinkOk treeOk root entries).stats = none ∨
    (streamScan cfg sinkOk treeOk root entries).stats = some emptyStats ∨
    (streamScan cfg sinkOk treeOk root entries).stats =
      some (streamWalkList cfg sinkOk root entries "" ⟨emptyStats, [], []⟩).stats := by
  simp only [streamScan]
  by_cases hro : shouldExcludeDir (baseName root) cfg.excludeDirs = true <;>
    by_cases ht : cfg.includeDirectoryTree = true <;>
    by_cases htw : treeOk = true <;>
    simp [hro, ht, htw]

/-! ## Claim theorems for the scan engines -/

/-- C2: content sniffing can never override a negative fast-path result. The
enhanced scanner reads content only under `opts.IncludeContent &&
fileInfo.IsText`, so the `!fileInfo.IsText && isTextContent(content)`
re-check inside that branch is unreachable: every emitted record's isText is
exactly the fast-path classification. Concretely, an extension-less
`myscript` whose content passes the text heuristic is still emitted with
isText = false although `includeContent` is enabled — against the claim (and
the source's own "Re-check if text using content" comment). -/
theorem claim_C2 :
    (∀ (cfg : ScanOptions) (sinkOk : FileInfo → Bool) (treeOk : Bool)
       (root : String) (entries : List FSEntry) (r : FileInfo),
       r ∈ (streamScan cfg sinkOk treeOk root entries).emitted →
       r.isText = isTextFile r.path r.extension) ∧
    ((streamScan ⟨false, false, false, false, false, false, false, [], [], true⟩
        (fun _ => true) true "/r"
        [FSEntry.file "myscript" 30 "t0" false
          (some "#!/usr/bin/env python\nprint(1)\n".data)]).emitted.map FileInfo.isText
        = [false] ∧
     isTextContent "#!/usr/bin/env python\nprint(1)\n".data = true ∧
     isTextFile "/r/myscript" (fileExt "/r/myscript") = false) := by
  constructor
  · intro cfg sinkOk treeOk root entries r hr
    rcases streamScan_emitted_cases cfg sinkOk treeOk root entries with he | he
    · rw [he] at hr
      simp at hr
    · rw [he] at hr
      obtain ⟨wf, _, rfl⟩ := List.mem_map.mp hr
      rw [mkStreamRecord_isText, mkStreamRecord_path, mkStreamRecord_ext]
  · exact ⟨by decide, by decide, by decide⟩

/-- C2 witness: the fast-path equation instantiated at the concrete record
the scenario emits. -/
theorem claim_C2_witness :
    (⟨"/r/myscript", "myscript", 30, "30 B", "t0", "t0", "", "", 0, "", false⟩ : FileInfo).isText
      = isTextFile "/r/myscript"
          (⟨"/r/myscript", "myscript", 30, "30 B", "t0", "t0", "", "", 0, "", false⟩ : FileInfo).extension :=
  claim_C2.1 ⟨false, false, false, false, false, false, false, [], [], true⟩
    (fun _ => true) true "/r"
    [FSEntry.file "myscript" 30 "t0" false (some "#!/usr/bin/env python\nprint(1)\n".data)]
    _ (by decide)

/-- C9: a record's content is non-empty only when content inclusion is on,
the record is a text record, and the read succeeded (a failed read leaves
content empty). -/
theorem claim_C9 :
    (∀ (cfg : ScanOptions) (sinkOk : FileInfo → Bool) (treeOk : Bool)
       (root : String) (entries : List FSEntry) (r : FileInfo),
       r ∈ (streamScan cfg sinkOk treeOk root entries).emitted →
       r.content ≠ "" → cfg.includeContent = true ∧ r.isText = true) ∧
    (∀ (cfg : ScanOptions) (wf : WalkedFile), wf.content = none →
       (mkStreamRecord cfg wf).content = "") := by
  constructor
  · intro cfg sinkOk treeOk root entries r hr hne
    rcases streamScan_emitted_cases cfg sinkOk treeOk root entries with he | he
    · rw [he] at hr
      simp at hr
    · rw [he] at hr
      obtain ⟨wf, _, rfl⟩ := List.mem_map.mp hr
      exact mkStreamRecord_content cfg wf hne
  · exact fun cfg wf h => mkStreamRecord_read_failed cfg wf h

/-- C9 witness: a concrete included text file with a successful read. -/
theorem claim_C9_witness :
    (⟨false, false, false, false, false, false, false, [], [], true⟩ : ScanOptions).includeContent
        = true ∧
    (⟨"/r/a.txt", "a.txt", 2, "2 B", "t0", "t0", "hi", "", 1, ".txt", true⟩ : FileInfo).isText
        = true :=
  claim_C9.1 ⟨false, false, false, false, false, false, false, [], [], true⟩
    (fun _ => true) true "/r"
    [FSEntry.file "a.txt" 2 "t0" false (some "hi".data)]
    ⟨"/r/a.txt", "a.txt", 2, "2 B", "t0", "t0", "hi", "", 1, ".txt", true⟩
    (by decide) (by decide)

/-- C5: `totalFiles = textFileCount + binaryFileCount` is preserved by every
per-file statistics update, holds for the final statistics of every
completed streaming scan, and holds for the batch scan's counters. -/
theorem claim_C5 :
    (∀ (cfg : ScanOptions) (sinkOk : FileInfo → Bool) (root name relDir : String)
       (size : Int) (mtime : String) (statErr : Bool) (content : Option (List Char))
       (acc : StreamAcc),
       acc.stats.totalFiles = acc.stats.textFiles + acc.stats.binaryFiles →
       ((processFile cfg sinkOk root name relDir size mtime statErr content acc).1).stats.totalFiles =
         ((processFile cfg sinkOk root name relDir size mtime statErr content acc).1).stats.textFiles +
         ((processFile cfg sinkOk root name relDir size mtime statErr content acc).1).stats.binaryFiles) ∧
    (∀ (cfg : ScanOptions) (sinkOk : FileInfo → Bool) (treeOk : Bool) (root : String)
       (entries : List FSEntry) (s : StreamingStats),
       (streamScan cfg sinkOk treeOk root entries).stats = some s →
       s.totalFiles = s.textFiles + s.binaryFiles) ∧
    (∀ (cfg : ScanOptions) (root : String) (entries : List FSEntry),
       (batchScan cfg root entries).totalFiles =
         (batchScan cfg root entries).textFiles + (batchScan cfg root entries).binaryFiles) := by
  refine ⟨processFile_statsInv, ?_, ?_⟩
  · intro cfg sinkOk treeOk root entries s hs
    have hwalk := streamWalkList_statsInv cfg sinkOk root entries "" ⟨emptyStats, [], []⟩
      (by simp [emptyStats])
    rcases streamScan_stats_cases cfg sinkOk treeOk root entries with h | h | h
    · rw [h] at hs
      exact absurd hs (by simp)
    · rw [h] at hs
      obtain rfl : emptyStats = s := Option.some.inj hs
      simp [emptyStats]
    · rw [h] at hs
      obtain rfl : (streamWalkList cfg sinkOk root entries "" ⟨emptyStats, [], []⟩).stats = s :=
        Option.some.inj hs
      exact hwalk
  · intro cfg root entries
    by_cases hro : shouldExcludeDir (baseName root) cfg.excludeDirs = true
    · simp [batchScan, hro]
    · have := batchWalkList_inv cfg root entries "" ⟨[], 0, 0, 0, 0, []⟩ (by simp)
      simpa [batchScan, hro] using this

/-- C5 witness: the per-update preservation applied at a concrete state, and
the final-statistics form at a concrete scan. -/
theorem claim_C5_witness :
    (((processFile ⟨false, false, false, false, false, false, false, [], [], false⟩
        (fun _ => true) "/r" "a.txt" "" 2 "t0" false (some "hi".data)
        ⟨⟨3, 9, 1, 2, []⟩, [], []⟩).1).stats.totalFiles =
      ((processFile ⟨false, false, false, false, false, false, false, [], [], false⟩
        (fun _ => true) "/r" "a.txt" "" 2 "t0" false (some "hi".data)
        ⟨⟨3, 9, 1, 2, []⟩, [], []⟩).1).stats.textFiles +
      ((processFile ⟨false, false, false, false, false, false, false, [], [], false⟩
        (fun _ => true) "/r" "a.txt" "" 2 "t0" false (some "hi".data)
        ⟨⟨3, 9, 1, 2, []⟩, [], []⟩).1).stats.binaryFiles) ∧
    ((⟨1, 2, 0, 1, []⟩ : StreamingStats).totalFiles =
      (⟨1, 2, 0, 1, []⟩ : StreamingStats).textFiles +
      (⟨1, 2, 0, 1, []⟩ : StreamingStats).binaryFiles) :=
  ⟨claim_C5.1 ⟨false, false, false, false, false, false, false, [], [], false⟩
      (fun _ => true) "/r" "a.txt" "" 2 "t0" false (some "hi".data)
      ⟨⟨3, 9, 1, 2, []⟩, [], []⟩ (by decide),
   claim_C5.2.1 ⟨false, false, false, false, false, false, false, [], [], false⟩
      (fun _ => true) true "/r" [FSEntry.file "a.bin" 2 "t0" false none]
      ⟨1, 2, 0, 1, []⟩ (by decide)⟩

/-- C6 counterexample: in the batch scanner of scanner/analysis.go a walk
error entry makes the callback return the error, aborting `filepath.WalkDir`
and becoming the scan's returned error — not a recorded-and-continue
outcome. -/
theorem claim_C6_counterexample :
    (batchScan ⟨false, false, false, false, false, false, false, [], [], false⟩ "/r"
      [FSEntry.errEntry "sub"]).err = some "walk /r/sub" := by
  decide

/-- C6 (amended): in the enhanced streaming scanner a per-entry traversal
error is non-fatal — it is recorded, the walk continues with the remaining
entries unchanged (same statistics, same emitted records, same collected
paths), and the scan returns a nil error; in the older batch scanner
(scanner/analysis.go) the same entry aborts the walk immediately, the error
becoming the scan's outcome. -/
theorem claim_C6 :
    (∀ (cfg : ScanOptions) (sinkOk : FileInfo → Bool) (root name : String)
       (rest : List FSEntry),
       shouldExcludeDir (baseName root) cfg.excludeDirs = false →
       (streamScan cfg sinkOk true root (FSEntry.errEntry name :: rest)).err = none ∧
       (streamScan cfg sinkOk true root (FSEntry.errEntry name :: rest)).stats =
         (streamScan cfg sinkOk true root rest).stats ∧
       (streamScan cfg sinkOk true root (FSEntry.errEntry name :: rest)).emitted =
         (streamScan cfg sinkOk true root rest).emitted ∧
       (streamScan cfg sinkOk true root (FSEntry.errEntry name :: rest)).errors =
         ⟨root ++ "/" ++ name, "scan", true⟩ ::
           (streamScan cfg sinkOk true root rest).errors ∧
       (streamScan cfg sinkOk true root (FSEntry.errEntry name :: rest)).filePaths =
         (streamScan cfg sinkOk true root rest).filePaths) ∧
    (∀ (cfg : ScanOptions) (root name relDir : String) (rest : List FSEntry)
       (acc : BatchAcc),
       batchWalkList cfg root (FSEntry.errEntry name :: rest) relDir acc =
         (acc, some ("walk " ++ root ++ "/" ++ relJoin relDir name))) := by
  constructor
  · intro cfg sinkOk root name rest hro
    have hshift := streamWalkList_errors_shift cfg sinkOk root rest "" emptyStats [] []
      [⟨root ++ "/" ++ relJoin "" name, "scan", true⟩]
    simp only [List.append_nil] at hshift
    have hwalk : streamWalkList cfg sinkOk root (FSEntry.errEntry name :: rest) ""
        ⟨emptyStats, [], []⟩ =
        { streamWalkList cfg sinkOk root rest "" ⟨emptyStats, [], []⟩ with
          errors := ⟨root ++ "/" ++ name, "scan", true⟩ ::
            (streamWalkList cfg sinkOk root rest "" ⟨emptyStats, [], []⟩).errors } := by
      simp only [streamWalkList, streamWalkEntry, List.nil_append]
      rw [hshift]
      simp [relJoin]
    have hpaths : collectPathsList cfg root (FSEntry.errEntry name :: rest) "" [] =
        collectPathsList cfg root rest "" [] := by
      simp [collectPathsList, collectPathsEntry]
    simp only [streamScan]
    by_cases ht : cfg.includeDirectoryTree = true <;>
      simp [hro, ht, hwalk, hpaths]
  · intro cfg root name relDir rest acc
    simp [batchWalkList, batchWalkEntry]

/-- C6 witness: the non-fatal streaming behavior at a concrete tree. -/
theorem claim_C6_witness :
    (streamScan ⟨false, false, false, false, false, false, false, [], [], false⟩
        (fun _ => true) true "/r" [FSEntry.errEntry "sub"]).err = none ∧
    (streamScan ⟨false, false, false, false, false, false, false, [], [], false⟩
        (fun _ => true) true "/r" [FSEntry.errEntry "sub"]).stats =
      (streamScan ⟨false, false, false, false, false, false, false, [], [], false⟩
        (fun _ => true) true "/r" []).stats ∧
    (streamScan ⟨false, false, false, false, false, false, false, [], [], false⟩
        (fun _ => true) true "/r" [FSEntry.errEntry "sub"]).emitted =
      (streamScan ⟨false, false, false, false, false, false, false, [], [], false⟩
        (fun _ => true) true "/r" []).emitted ∧
    (streamScan ⟨false, false, false, false, false, false, false, [], [], false⟩
        (fun _ => true) true "/r" [FSEntry.errEntry "sub"]).errors =
      ⟨"/r" ++ "/" ++ "sub", "scan", true⟩ ::
        (streamScan ⟨false, false, false, false, false, false, false, [], [], false⟩
          (fun _ => true) true "/r" []).errors ∧
    (streamScan ⟨false, false, false, false, false, false, false, [], [], false⟩
        (fun _ => true) true "/r" [FSEntry.errEntry "sub"]).filePaths =
      (streamScan ⟨false, false, false, false, false, false, false, [], [], false⟩
        (fun _ => true) true "/r" []).filePaths :=
  claim_C6.1 ⟨false, false, false, false, false, false, false, [], [], false⟩
    (fun _ => true) "/r" "sub" [] (by decide)

/-- C7: the enhanced streaming scan never propagates a per-file callback
failure — its walk callback swallows the error `processFile` built. On a
concrete two-file tree whose sink rejects the first file, the walk still
emits both records, records the write error (with the offending path, marked
non-skipped), returns statistics for both files and a nil error — while the
claim (and the superseded streaming scanner, and the error value
`processFile` itself constructs and returns) say the scan aborts with that
error as its outcome. -/
theorem claim_C7 :
    (∀ (cfg : ScanOptions) (sinkOk : FileInfo → Bool) (root : String)
       (entries : List FSEntry),
       (streamScan cfg sinkOk true root entries).err = none) ∧
    ((streamScan ⟨false, false, false, false, false, false, false, [], [], true⟩
        (fun r => r.relativePath != "a.txt") true "/r"
        [FSEntry.file "a.txt" 3 "t0" false (some "hi".data),
         FSEntry.file "b.txt" 4 "t0" false (some "yo".data)]).err = none ∧
     (streamScan ⟨false, false, false, false, false, false, false, [], [], true⟩
        (fun r => r.relativePath != "a.txt") true "/r"
        [FSEntry.file "a.txt" 3 "t0" false (some "hi".data),
         FSEntry.file "b.txt" 4 "t0" false (some "yo".data)]).emitted.map
          FileInfo.relativePath = ["a.txt", "b.txt"] ∧
     (streamScan ⟨false, false, false, false, false, false, false, [], [], true⟩
        (fun r => r.relativePath != "a.txt") true "/r"
        [FSEntry.file "a.txt" 3 "t0" false (some "hi".data),
         FSEntry.file "b.txt" 4 "t0" false (some "yo".data)]).errors =
       [⟨"/r/a.txt", "write", false⟩] ∧
     (streamScan ⟨false, false, false, false, false, false, false, [], [], true⟩
        (fun r => r.relativePath != "a.txt") true "/r"
        [FSEntry.file "a.txt" 3 "t0" false (some "hi".data),
         FSEntry.file "b.txt" 4 "t0" false (some "yo".data)]).stats =
       some ⟨2, 7, 2, 0, []⟩) := by
  constructor
  · intro cfg sinkOk root entries
    simp only [streamScan]
    by_cases hro : shouldExcludeDir (baseName root) cfg.excludeDirs = true <;>
      by_cases ht : cfg.includeDirectoryTree = true <;>
      simp [hro, ht]
  · exact ⟨by decide, by decide, by decide, by decide⟩

/-- C8 counterexample: over the same root and configuration (content
inclusion on) the streaming scan records language "python" for an
extension-unknown text file via the content fallback, while the batch scan of
scanner/analysis.go never consults content and records the empty language —
the `{relativePath, sizeBytes, language, isText}` tuple sets differ. -/
theorem claim_C8_counterexample :
    ("a.txt", (5 : Int), "python", true) ∈
      (streamScan ⟨false, false, false, false, false, false, false, [], [], true⟩
        (fun _ => true) true "/r"
        [FSEntry.file "a.txt" 5 "t0" false
          (some "#!/usr/bin/env python\nprint(1)\n".data)]).emitted.map fileKey4 ∧
    ("a.txt", (5 : Int), "python", true) ∉
      (batchScan ⟨false, false, false, false, false, false, false, [], [], true⟩ "/r"
        [FSEntry.file "a.txt" 5 "t0" false
          (some "#!/usr/bin/env python\nprint(1)\n".data)]).files.map fileKey4 := by
  constructor
  · decide
  · decide

/-- C8 (amended): over an error-free tree, for every configuration and sink,
the batch scan (scanner/analysis.go) and the streaming scan produce the same
set of `{relativePath, sizeBytes, isText}` tuples; the full tuples including
`language` also agree whenever content inclusion is disabled (with content
enabled the streaming scanner may fill in a content-derived language where
the batch scanner leaves it empty, as the counterexample shows). -/
theorem claim_C8 :
    ∀ (cfg : ScanOptions) (sinkOk : FileInfo → Bool) (root : String)
      (entries : List FSEntry),
      cleanList entries = true →
      ((∀ x, x ∈ (batchScan cfg root entries).files.map fileKey3 ↔
             x ∈ (streamScan cfg sinkOk true root entries).emitted.map fileKey3) ∧
       (cfg.includeContent = false →
        ∀ x, x ∈ (batchScan cfg root entries).files.map fileKey4 ↔
             x ∈ (streamScan cfg sinkOk true root entries).emitted.map fileKey4)) := by
  intro cfg sinkOk root entries hclean
  by_cases hro : shouldExcludeDir (baseName root) cfg.excludeDirs = true
  · have hb : (batchScan cfg root entries).files = [] := by
      simp [batchScan, hro]
    have hs : (streamScan cfg sinkOk true root entries).emitted = [] := by
      simp only [streamScan]
      by_cases ht : cfg.includeDirectoryTree = true <;> simp [hro, ht]
    constructor
    · intro x
      rw [hb, hs]
    · intro _ x
      rw [hb, hs]
  · have hro2 : shouldExcludeDir (baseName root) cfg.excludeDirs = false := by
      simpa using hro
    obtain ⟨_, hbf⟩ := batchWalkList_clean cfg root entries hclean "" ⟨[], 0, 0, 0, 0, []⟩
    have hbatch : (batchScan cfg root entries).files =
        ((walkFilesList cfg root entries "").map (mkBatchRecord cfg)).insertionSort
          (fun a b => a.relativePath < b.relativePath) := by
      simp only [batchScan, hro2, Bool.false_eq_true, if_false]
      rw [hbf]
      simp
    have hstream := streamScan_emitted_eq cfg sinkOk root entries hro2
    have hperm : List.Perm
        (((walkFilesList cfg root entries "").map (mkBatchRecord cfg)).insertionSort
          (fun a b => a.relativePath < b.relativePath))
        ((walkFilesList cfg root entries "").map (mkBatchRecord cfg)) :=
      List.perm_insertionSort _ _
    constructor
    · intro x
      rw [hbatch, hstream]
      rw [(hperm.map fileKey3).mem_iff]
      have hkey : ((walkFilesList cfg root entries "").map (mkBatchRecord cfg)).map fileKey3 =
          ((walkFilesList cfg root entries "").map (mkStreamRecord cfg)).map fileKey3 := by
        simp only [List.map_map]
        exact List.map_congr_left fun wf _ => (fileKey3_mk_eq cfg wf).symm
      rw [hkey]
    · intro hic x
      rw [hbatch, hstream]
      rw [(hperm.map fileKey4).mem_iff]
      have hrec : (walkFilesList cfg root entries "").map (mkBatchRecord cfg) =
          (walkFilesList cfg root entries "").map (mkStreamRecord cfg) :=
        List.map_congr_left fun wf _ => (mkRecords_eq_noContent cfg wf hic).symm
      rw [hrec]

/-- C8 witness: the amended round-trip at a concrete error-free tree with
content inclusion disabled. -/
theorem claim_C8_witness :
    (("a.go", (3 : Int), true) ∈
       (batchScan ⟨false, false, false, false, false, false, false, [], [], false⟩ "/r"
         [FSEntry.file "a.go" 3 "t0" false none]).files.map fileKey3 ↔
     ("a.go", (3 : Int), true) ∈
       (streamScan ⟨false, false, false, false, false, false, false, [], [], false⟩
         (fun _ => true) true "/r"
         [FSEntry.file "a.go" 3 "t0" false none]).emitted.map fileKey3) :=
  (claim_C8 ⟨false, false, false, false, false, false, false, [], [], false⟩
    (fun _ => true) "/r" [FSEntry.file "a.go" 3 "t0" false none] (by decide)).1
    ("a.go", (3 : Int), true)

set_option maxRecDepth 4096 in
/-- C1: replaying the streaming JSON renderer in the mandated order
(`WriteHeader`, `WriteTree`, `WriteFile` × N, `WriteFooter`, `Close`).
Without a directory tree the document is well-formed for N = 0 and for
N = 2; with a tree requested but an empty path list, `WriteTree` writes
nothing and the document is still well-formed. But when a tree is requested
with at least one path, `WriteTree` emits the `"directory_tree"` member
inside the `files` array that `WriteHeader` has already opened, and the
resulting document is not syntactically valid JSON — against the claim and
against the source's own comment "Add tree field before files array". -/
theorem claim_C1 :
    jsonDocValid (replayJSONWriter ⟨false, false, false, false, false, false, false⟩
      "/repo" "2024-01-01T00:00:00Z" [] [] ⟨0, 0, 0, 0, []⟩) = true ∧
    jsonDocValid (replayJSONWriter ⟨false, false, false, false, false, false, false⟩
      "/repo" "t" []
      [⟨"/repo/a.go", "a.go", 5, "5 B", "tm", "tm", "", "go", 0, ".go", true⟩,
       ⟨"/repo/b.txt", "b.txt", 7, "7 B", "tm", "tm", "hi\nthere", "", 2, ".txt", true⟩]
      ⟨2, 12, 2, 0, []⟩) = true ∧
    jsonDocValid (replayJSONWriter ⟨false, true, false, false, false, false, false⟩
      "/repo" "t" [] [] ⟨0, 0, 0, 0, []⟩) = true ∧
    jsonDocValid (replayJSONWriter ⟨false, true, false, false, false, false, false⟩
      "/repo" "t" ["a.go"] [] ⟨0, 0, 0, 0, []⟩) = false := by
  exact ⟨by decide, by decide, by decide, by decide⟩

end CodeEcho
